import Mathlib

/-!
Shallow embedding of the `Projekt-ERROR/calc` arithmetic core
(`src/js/calculatorEngine.js`, `src/js/utils.js`, `src/js/constants.js`,
`src/js/calculatorHistory.js`) and proofs about it.

Modelling conventions:
* JS strings are `List Char` (the `String` wrappers at the end mirror the
  public string-typed API; `String.data` is the bridge).
* JS numbers are exact rationals `ℚ`.  All numeric literals accepted by the
  engine inside the ±(2^53−1) safe range are integers that IEEE doubles
  represent exactly, and every claim under verification is about control
  flow, error classification and integer-valued examples, none about
  floating-point rounding.  In this model every value is finite, so the
  `isFinite`/`isNaN` check on a computed number (`isValidNumberVal`) is
  constantly true; the corresponding `CALCULATION_ERROR` branch is kept to
  mirror the code's structure.
* Fallible JS functions returning `{success, error}` / `{valid, error}`
  objects become `Except String _`, carrying the exact error-message string
  the source uses.
* `typeof`-guards on arguments (`typeof infix !== 'string'`,
  `Array.isArray(tokens)`, the null/object checks in `pushToHistory`) are
  discharged by the Lean types and omitted; the `try/catch` wrappers are
  omitted because no modelled operation throws.
-/

namespace CalcEngine

/-! ### constants (`src/js/constants.js`) -/

def DIVISION_BY_ZERO : String := "cannot divide by zero"

def INVALID_EXPRESSION : String := "invalid expression"

def INVALID_NUMBER : String := "invalid number format"

def CALCULATION_ERROR : String := "calculation error"

def EMPTY_EXPRESSION : String := "no expression to calculate"

def MISSING_OPERAND : String := "missing operand"

def MISMATCHED_PARENTHESES : String := "mismatched parentheses"

/-- `VALIDATION.MAX_NUMBER_VALUE = Number.MAX_SAFE_INTEGER = 2^53 − 1`. -/
def MAX_NUMBER_VALUE : ℚ := 9007199254740991

/-- `VALIDATION.MIN_NUMBER_VALUE = Number.MIN_SAFE_INTEGER = −(2^53 − 1)`. -/
def MIN_NUMBER_VALUE : ℚ := -9007199254740991

/-- `VALIDATION.MAX_HISTORY`. -/
def MAX_HISTORY : Nat := 10

/-- The inline error string `'number outside safe range'` used by
`infixToPostfix` and by the operand check of `evaluatePostfix`. -/
def numberOutOfRangeMsg : String := "number outside safe range"

/-- The inline error string `'result outside safe range'` used after an
operator is applied in `evaluatePostfix`. -/
def resultOutOfRangeMsg : String := "result outside safe range"

/-! ### JS string and number primitives -/

/-- The whitespace characters relevant to `String.prototype.trim` for the
inputs this program handles. -/
def jsWhitespace (c : Char) : Bool :=
  c = ' ' || c = '\t' || c = '\n' || c = '\r' || c = '\x0b' || c = '\x0c'

/-- `String.prototype.trim`: strip whitespace from both ends. -/
def jsTrim (cs : List Char) : List Char :=
  ((cs.dropWhile jsWhitespace).reverse.dropWhile jsWhitespace).reverse

/-- Value of a run of decimal digit characters, most significant first
(the usual left-to-right accumulation a decimal parser performs). -/
def parseDigitsNat (ds : List Char) : Nat :=
  ds.foldl (fun a c => 10 * a + (c.toNat - 48)) 0

/-- Unsigned part of the `parseFloat` model: greedy integer digits, an
optional dot, greedy fraction digits; at least one digit must be
present (`none` models a `NaN` outcome). -/
def parseMag (cs1 : List Char) : Option ℚ :=
  let intD := cs1.takeWhile Char.isDigit
  let r1 := cs1.dropWhile Char.isDigit
  match r1 with
  | '.' :: r2 =>
    let frac := r2.takeWhile Char.isDigit
    if intD.isEmpty && frac.isEmpty then none
    else some ((parseDigitsNat intD : ℚ) + (parseDigitsNat frac : ℚ) / (10 : ℚ) ^ frac.length)
  | _ => if intD.isEmpty then none else some (parseDigitsNat intD)

/-- Model of JS `parseFloat` on the strings this program can pass it:
skip an optional sign, then a `parseMag` numeric prefix.  (Leading
whitespace, `Infinity` and exponents never occur in the engine's
tokens.) -/
def jsParseFloat (cs : List Char) : Option ℚ :=
  let signNeg : Bool := decide (cs.head? = some '-')
  let cs1 : List Char :=
    if cs.head? = some '-' ∨ cs.head? = some '+' then cs.tail else cs
  match parseMag cs1 with
  | some q => some (if signNeg then -q else q)
  | none => none

/-- `validate.isValidNumber` applied to a string token:
`parseFloat` succeeds (and in the rational model the value is always
finite). -/
def isValidNumber (cs : List Char) : Bool :=
  (jsParseFloat cs).isSome

/-- `validate.isValidNumber` applied to an already-computed number.  In the
rational model every number is finite, so this is constantly `true`; the
JS original only returns `false` on `NaN`/`Infinity`, which cannot arise
from finite operands with the division-by-zero guard in place. -/
def isValidNumberVal (_q : ℚ) : Bool := true

/-- `validate.isInSafeRange`. -/
def isInSafeRange (q : ℚ) : Bool :=
  decide (MIN_NUMBER_VALUE ≤ q) && decide (q ≤ MAX_NUMBER_VALUE)

/-! ### validators (`src/js/utils.js`) -/

/-- Loop body of `validate.validateParentheses`: signed counter over the
characters, +1 per `(`, −1 per `)`, failing as soon as it goes negative
and at the end if it is nonzero. -/
def vpGo (count : Int) : List Char → Except String Unit
  | [] => if count ≠ 0 then .error MISMATCHED_PARENTHESES else .ok ()
  | c :: rest =>
    let count' : Int :=
      if c = '(' then count + 1 else if c = ')' then count - 1 else count
    if count' < 0 then .error MISMATCHED_PARENTHESES else vpGo count' rest

/-- `validate.validateParentheses`. -/
def validateParenthesesCore (cs : List Char) : Except String Unit :=
  vpGo 0 cs

/-- Character class of the whitelist regex `/^[\d+\-*\/.() ]+$/` in
`validate.validateExpression`. -/
def whitelistChar (c : Char) : Bool :=
  c.isDigit || c = '+' || c = '-' || c = '*' || c = '/' || c = '.' ||
    c = '(' || c = ')' || c = ' '

/-- `validate.validateExpression`: empty / whitespace-only input fails with
`EMPTY_EXPRESSION`; then the whole string must match the whitelist
regex (at least one character, all from the class). -/
def validateExpressionCore (cs : List Char) : Except String Unit :=
  if cs.isEmpty || (jsTrim cs).isEmpty then .error EMPTY_EXPRESSION
  else if !cs.isEmpty && cs.all whitelistChar then .ok ()
  else .error INVALID_EXPRESSION

/-! ### tokenizer

`infixToPostfix` tokenizes with `infix.match(/(\d*\.?\d+|[+\-*\/()])/g)`:
scan left to right; at each position try to match a number
(greedy digits, optional single dot that must be followed by a digit —
backtracking drops the dot otherwise — then greedy fraction digits) or a
single character from `+-*/()`; characters matching neither are skipped.
`scanTokens` is that scan as a one-pass state machine; the accumulators
hold the pending number token in reverse. -/

/-- Single-character token class `[+\-*\/()]` of the tokenizer regex. -/
def sixChar (c : Char) : Bool :=
  c = '+' || c = '-' || c = '*' || c = '/' || c = '(' || c = ')'

inductive ScanState where
  | top
  | intPart (acc : List Char)
  | fracPart (acc : List Char)

def scanTokens : ScanState → List Char → List (List Char)
  | .top, [] => []
  | .top, c :: rest =>
    if c.isDigit then scanTokens (.intPart [c]) rest
    else if sixChar c then [c] :: scanTokens .top rest
    else if c = '.' then
      match rest with
      | d :: rest2 =>
        if d.isDigit then scanTokens (.fracPart [d, '.']) rest2
        else scanTokens .top (d :: rest2)
      | [] => []
    else scanTokens .top rest
  | .intPart acc, [] => [acc.reverse]
  | .intPart acc, c :: rest =>
    if c.isDigit then scanTokens (.intPart (c :: acc)) rest
    else if sixChar c then acc.reverse :: [c] :: scanTokens .top rest
    else if c = '.' then
      match rest with
      | d :: rest2 =>
        if d.isDigit then scanTokens (.fracPart (d :: '.' :: acc)) rest2
        else acc.reverse :: scanTokens .top (d :: rest2)
      | [] => [acc.reverse]
    else acc.reverse :: scanTokens .top rest
  | .fracPart acc, [] => [acc.reverse]
  | .fracPart acc, c :: rest =>
    if c.isDigit then scanTokens (.fracPart (c :: acc)) rest
    else if sixChar c then acc.reverse :: [c] :: scanTokens .top rest
    else if c = '.' then
      match rest with
      | d :: rest2 =>
        if d.isDigit then acc.reverse :: scanTokens (.fracPart [d, '.']) rest2
        else acc.reverse :: scanTokens .top (d :: rest2)
      | [] => [acc.reverse]
    else acc.reverse :: scanTokens .top rest

/-- Step 1 of `infixToPostfix`. -/
def tokenizeCore (cs : List Char) : List (List Char) :=
  scanTokens .top cs

/-! ### unary-minus merge (`calculatorEngine.mergeNegativeNumbers`) -/

/-- The `isUnary` test of `mergeNegativeNumbers`:
`!previous || ['+', '-', '*', '/', '('].includes(previous)`. -/
def unaryPos (prev : Option (List Char)) : Bool :=
  match prev with
  | none => true
  | some p =>
    decide (p = ['+']) || decide (p = ['-']) || decide (p = ['*']) ||
      decide (p = ['/']) || decide (p = ['('])

/-- Loop of `mergeNegativeNumbers`.  `prev` is the previous token of the
ORIGINAL array (`tokens[i-1]`); after a merge the scan skips the fused
number, so the next `prev` is that number token. -/
def mergeGo (prev : Option (List Char)) : List (List Char) → Except String (List (List Char))
  | [] => .ok []
  | [cur] =>
    -- with no `next` token a `-` is kept as-is, like any other token
    .ok [cur]
  | cur :: next :: rest2 =>
    if cur = ['-'] && unaryPos prev && isValidNumber next then
      let negativeNum := '-' :: next
      if isValidNumber negativeNum then
        match mergeGo (some next) rest2 with
        | .error e => .error e
        | .ok r => .ok (negativeNum :: r)
      else .error INVALID_NUMBER
    else
      match mergeGo (some cur) (next :: rest2) with
      | .error e => .error e
      | .ok r => .ok (cur :: r)

/-- `calculatorEngine.mergeNegativeNumbers`. -/
def mergeNegativeNumbers (tokens : List (List Char)) : Except String (List (List Char)) :=
  mergeGo none tokens

/-! ### shunting-yard (`calculatorEngine.infixToPostfix`) -/

/-- The `precedence` table. -/
def precedence (t : List Char) : Option Nat :=
  if t = ['+'] then some 1
  else if t = ['-'] then some 1
  else if t = ['*'] then some 2
  else if t = ['/'] then some 2
  else none

/-- The condition of the operator-popping `while` loop for an incoming
operator of precedence `pt`: the stack top has a defined precedence
(so it is an operator, not `(`) that is ≥ `pt`. -/
def popCond (pt : Nat) (op : List Char) : Bool :=
  match precedence op with
  | some q => decide (pt ≤ q)
  | none => false

/-- The operator-popping `while` loop: pop stack tops satisfying
`popCond pt` to the output. -/
def popLoop (pt : Nat) (output operators : List (List Char)) :
    List (List Char) × List (List Char) :=
  match operators with
  | [] => (output, [])
  | op :: rest =>
    if popCond pt op then popLoop pt (output ++ [op]) rest
    else (output, op :: rest)

/-- The `)`-handling `while` loop: pop operators to the output until a `(`
is on top (or the stack empties). -/
def popToParen (output operators : List (List Char)) :
    List (List Char) × List (List Char) :=
  match operators with
  | [] => (output, [])
  | op :: rest =>
    if op = ['('] then (output, op :: rest)
    else popToParen (output ++ [op]) rest

/-- The final drain loop of `infixToPostfix`: pop all remaining operators
to the output, failing on a stray parenthesis, then require a non-empty
output. -/
def drainOps (operators output : List (List Char)) : Except String (List (List Char)) :=
  match operators with
  | [] => if output.isEmpty then .error EMPTY_EXPRESSION else .ok output
  | op :: rest =>
    if op = ['('] || op = [')'] then .error MISMATCHED_PARENTHESES
    else drainOps rest (output ++ [op])

/-- The main token loop of `infixToPostfix` (step 3, shunting yard).
The operator stack has its top at the head. -/
def syGo (tokens : List (List Char)) (output operators : List (List Char)) :
    Except String (List (List Char)) :=
  match tokens with
  | [] => drainOps operators output
  | tok :: rest =>
    if isValidNumber tok then
      let num := (jsParseFloat tok).getD 0
      if isInSafeRange num then syGo rest (output ++ [tok]) operators
      else .error numberOutOfRangeMsg
    else
      match precedence tok with
      | some pt =>
        let popped := popLoop pt output operators
        syGo rest popped.1 (tok :: popped.2)
      | none =>
        if tok = ['('] then syGo rest output (tok :: operators)
        else if tok = [')'] then
          let popped := popToParen output operators
          match popped.2 with
          | [] => .error MISMATCHED_PARENTHESES
          | _ :: ops2 => syGo rest popped.1 ops2
        else .error ("invalid token: " ++ String.mk tok)

/-- `output.join(' ')`. -/
def joinToks : List (List Char) → List Char
  | [] => []
  | [t] => t
  | t :: ts => t ++ ' ' :: joinToks ts

/-- `calculatorEngine.infixToPostfix` on character lists. -/
def infixToPostfixCore (cs : List Char) : Except String (List Char) :=
  match validateParenthesesCore cs with
  | .error e => .error e
  | .ok _ =>
    let tokens := tokenizeCore cs
    if tokens.isEmpty then .error INVALID_EXPRESSION
    else
      match mergeNegativeNumbers tokens with
      | .error e => .error e
      | .ok merged =>
        match syGo merged [] [] with
        | .error e => .error e
        | .ok out => .ok (joinToks out)

/-! ### postfix evaluation (`calculatorEngine.evaluatePostfix`) -/

/-- `String.prototype.split(' ')`: split on every single space; empty
segments are kept (and the empty string yields one empty segment). -/
def splitSpace : List Char → List (List Char)
  | [] => [[]]
  | c :: rest =>
    match splitSpace rest with
    | [] => [[]]
    | t :: ts => if c = ' ' then [] :: t :: ts else (c :: t) :: ts

/-- The token loop of `evaluatePostfix`.  The operand stack has its top at
the head, so for an operator the first pop is `b`, the second `a`. -/
def evGo (stack : List ℚ) (tokens : List (List Char)) : Except String ℚ :=
  match tokens with
  | [] =>
    match stack with
    | [q] => .ok q
    | _ => .error INVALID_EXPRESSION
  | tok :: rest =>
    if isValidNumber tok then
      let num := (jsParseFloat tok).getD 0
      if isInSafeRange num then evGo (num :: stack) rest
      else .error numberOutOfRangeMsg
    else
      match stack with
      | b :: a :: st =>
        let rE : Except String ℚ :=
          if tok = ['+'] then .ok (a + b)
          else if tok = ['-'] then .ok (a - b)
          else if tok = ['*'] then .ok (a * b)
          else if tok = ['/'] then
            if b = 0 then .error DIVISION_BY_ZERO else .ok (a / b)
          else .error ("invalid operator: " ++ String.mk tok)
        match rE with
        | .error e => .error e
        | .ok result =>
          if !isValidNumberVal result then .error CALCULATION_ERROR
          else if isInSafeRange result then evGo (result :: st) rest
          else .error resultOutOfRangeMsg
      | _ => .error MISSING_OPERAND

/-- `calculatorEngine.evaluatePostfix` on character lists. -/
def evaluatePostfixCore (cs : List Char) : Except String ℚ :=
  if (jsTrim cs).isEmpty then .error EMPTY_EXPRESSION
  else evGo [] (splitSpace cs)

/-- `calculatorEngine.calculate` on character lists. -/
def calculateCore (cs : List Char) : Except String ℚ :=
  match validateExpressionCore cs with
  | .error e => .error e
  | .ok _ =>
    match infixToPostfixCore cs with
    | .error e => .error e
    | .ok pf => evaluatePostfixCore pf

/-! ### string-typed public API -/

def validateParentheses (s : String) : Except String Unit :=
  validateParenthesesCore s.data

def validateExpression (s : String) : Except String Unit :=
  validateExpressionCore s.data

def infixToPostfix (s : String) : Except String String :=
  (infixToPostfixCore s.data).map String.mk

def evaluatePostfix (s : String) : Except String ℚ :=
  evaluatePostfixCore s.data

def calculate (s : String) : Except String ℚ :=
  calculateCore s.data

/-! ### history (`src/js/calculatorHistory.js`)

The stored timestamp (`new Date().toISOString()`) needs a clock and is
omitted from the model; no claim mentions it.  A JS `result` value can be
a number (possibly `NaN`/`±Infinity`), or a string; `JSValue` models
exactly those shapes, and `Option JSValue` models a possibly
`undefined`/`null` field. -/

inductive JSValue where
  | num (q : ℚ)
  | nan
  | inf
  | ninf
  | str (s : String)
deriving DecidableEq

/-- The argument object of `pushToHistory` (its `entry.expression` and
`entry.result` fields). -/
structure PushInput where
  expression : String
  result : Option JSValue
deriving DecidableEq

/-- A stored history entry (timestamp omitted, see above). -/
structure HistoryEntry where
  expression : String
  result : ℚ
deriving DecidableEq

/-- `calculatorHistory.pushToHistory`: returns the `{success, error}`
outcome together with the new history list (oldest first, as in the JS
array). -/
def pushToHistory (history : List HistoryEntry) (entry : PushInput) :
    Except String Unit × List HistoryEntry :=
  if entry.expression = "" then (.error "Missing or invalid expression", history)
  else
    match entry.result with
    | none => (.error "Missing result", history)
    | some (.str _) => (.error "Cannot add error results to history", history)
    | some .nan => (.error "Invalid result value", history)
    | some .inf => (.error "Invalid result value", history)
    | some .ninf => (.error "Invalid result value", history)
    | some (.num q) =>
      let newEntry : HistoryEntry :=
        { expression := String.mk (jsTrim entry.expression.data), result := q }
      let pushed := history ++ [newEntry]
      (.ok (), if MAX_HISTORY < pushed.length then pushed.drop 1 else pushed)

/-- `calculatorHistory.clearHistory`. -/
def clearHistory (_history : List HistoryEntry) :
    Except String Unit × List HistoryEntry :=
  (.ok (), [])

/-- `calculatorHistory.getCount`. -/
def getCount (history : List HistoryEntry) : Nat :=
  history.length

/-- `calculatorHistory.removeEntryByIndex` (the index is a JS number;
`typeof index !== 'number'` is discharged by the type). -/
def removeEntryByIndex (history : List HistoryEntry) (index : Int) :
    Except String Unit × List HistoryEntry :=
  if index < 0 || (history.length : Int) ≤ index then (.error "Invalid index", history)
  else (.ok (), history.eraseIdx index.toNat)

/-- A step of the history state machine: one `push`, `remove` or `clear`
call. -/
inductive HistoryOp where
  | push (e : PushInput)
  | remove (i : Int)
  | clear

def applyHistoryOp (h : List HistoryEntry) : HistoryOp → List HistoryEntry
  | .push e => (pushToHistory h e).2
  | .remove i => (removeEntryByIndex h i).2
  | .clear => (clearHistory h).2

def runHistoryOps (h : List HistoryEntry) (ops : List HistoryOp) : List HistoryEntry :=
  ops.foldl applyHistoryOp h

/-! ### spec-side definitions used to state the claims -/

/-- Net parenthesis balance of a character list (`+1` per `(`, `−1` per
`)`), used to state what `validateParentheses` decides. -/
def parenBal : List Char → Int
  | [] => 0
  | c :: rest =>
    (if c = '(' then 1 else if c = ')' then (-1 : Int) else 0) + parenBal rest

/-- The spec's `InvalidExpression` error kind as a predicate on the
engine's error-message strings: the spec's taxonomy files the literal
message `invalid expression` and the templates `invalid token: <t>` /
`invalid operator: <t>` all under `InvalidExpression`. -/
def isInvalidExprKind (e : String) : Bool :=
  e = INVALID_EXPRESSION ||
    List.isPrefixOf ("invalid token: ".data) e.data ||
    List.isPrefixOf ("invalid operator: ".data) e.data

/-- Abstract arithmetic expressions, the spec's notion of "a valid infix
expression" for the round-trip property: numeric literals combined with
the four binary operators. -/
inductive AExp where
  | num (n : Nat)
  | add (a b : AExp)
  | sub (a b : AExp)
  | mul (a b : AExp)
  | div (a b : AExp)

/-- Decimal digit characters of a natural number, most significant
first. -/
def natChars (n : Nat) : List Char :=
  if n = 0 then ['0']
  else (Nat.digits 10 n).reverse.map fun d => Char.ofNat (48 + d)

/-- Render an `AExp` as a concrete infix string, parenthesizing every
compound subexpression (so the string's meaning is unambiguous). -/
def renderInfix : AExp → List Char
  | .num n => natChars n
  | .add a b => '(' :: (renderInfix a ++ '+' :: (renderInfix b ++ [')']))
  | .sub a b => '(' :: (renderInfix a ++ '-' :: (renderInfix b ++ [')']))
  | .mul a b => '(' :: (renderInfix a ++ '*' :: (renderInfix b ++ [')']))
  | .div a b => '(' :: (renderInfix a ++ '/' :: (renderInfix b ++ [')']))

/-- The token sequence the tokenizer extracts from `renderInfix`. -/
def infixTokens : AExp → List (List Char)
  | .num n => [natChars n]
  | .add a b => ['('] :: (infixTokens a ++ ['+'] :: (infixTokens b ++ [[')']]))
  | .sub a b => ['('] :: (infixTokens a ++ ['-'] :: (infixTokens b ++ [[')']]))
  | .mul a b => ['('] :: (infixTokens a ++ ['*'] :: (infixTokens b ++ [[')']]))
  | .div a b => ['('] :: (infixTokens a ++ ['/'] :: (infixTokens b ++ [[')']]))

/-- Postorder (reverse Polish) token sequence of an `AExp`. -/
def postTokens : AExp → List (List Char)
  | .num n => [natChars n]
  | .add a b => postTokens a ++ (postTokens b ++ [['+']])
  | .sub a b => postTokens a ++ (postTokens b ++ [['-']])
  | .mul a b => postTokens a ++ (postTokens b ++ [['*']])
  | .div a b => postTokens a ++ (postTokens b ++ [['/']])

/-- Last token of `infixTokens e` (a number for a literal, `)` for a
compound). -/
def lastTok : AExp → List Char
  | .num n => natChars n
  | .add _ _ => [')']
  | .sub _ _ => [')']
  | .mul _ _ => [')']
  | .div _ _ => [')']

/-- Direct arithmetic evaluation of an `AExp`, with the same side
conditions the engine enforces: every literal and every intermediate
result must be in the safe range and division by zero is undefined.
This is the spec's "direct arithmetic evaluation" of the expression. -/
def directEval : AExp → Option ℚ
  | .num n => if isInSafeRange (n : ℚ) then some (n : ℚ) else none
  | .add a b =>
    match directEval a, directEval b with
    | some x, some y => if isInSafeRange (x + y) then some (x + y) else none
    | _, _ => none
  | .sub a b =>
    match directEval a, directEval b with
    | some x, some y => if isInSafeRange (x - y) then some (x - y) else none
    | _, _ => none
  | .mul a b =>
    match directEval a, directEval b with
    | some x, some y => if isInSafeRange (x * y) then some (x * y) else none
    | _, _ => none
  | .div a b =>
    match directEval a, directEval b with
    | some x, some y =>
      if y = 0 then none
      else if isInSafeRange (x / y) then some (x / y) else none
    | _, _ => none

/-- All numeric literals of an `AExp` lie in the safe range. -/
def litsInRange : AExp → Prop
  | .num n => isInSafeRange (n : ℚ) = true
  | .add a b => litsInRange a ∧ litsInRange b
  | .sub a b => litsInRange a ∧ litsInRange b
  | .mul a b => litsInRange a ∧ litsInRange b
  | .div a b => litsInRange a ∧ litsInRange b

/-! ## Helper lemmas -/

theorem isValidNumber_add_tok : isValidNumber ['+'] = false := by decide

theorem isValidNumber_sub_tok : isValidNumber ['-'] = false := by decide

theorem isValidNumber_mul_tok : isValidNumber ['*'] = false := by decide

theorem isValidNumber_div_tok : isValidNumber ['/'] = false := by decide

theorem isValidNumber_lparen_tok : isValidNumber ['('] = false := by decide

theorem isValidNumber_rparen_tok : isValidNumber [')'] = false := by decide

/-- `evaluatePostfix` loop: a non-number token with fewer than two stacked
operands fails with `MISSING_OPERAND` (the stack-size guard runs before
the operator switch). -/
theorem evGo_short_stack (st : List ℚ) (tok : List Char) (rest : List (List Char))
    (h1 : isValidNumber tok = false) (h2 : st.length < 2) :
    evGo st (tok :: rest) = .error MISSING_OPERAND := by
  match st with
  | [] => simp [evGo, h1]
  | [q] => simp [evGo, h1]
  | q1 :: q2 :: t => simp at h2; omega

/-- `evaluatePostfix` loop: `+` pops `b` then `a` and pushes `a + b`
(when the result is in the safe range). -/
theorem evGo_add_step (a b : ℚ) (st : List ℚ) (rest : List (List Char))
    (h : isInSafeRange (a + b) = true) :
    evGo (b :: a :: st) (['+'] :: rest) = evGo ((a + b) :: st) rest := by
  simp [evGo, isValidNumber_add_tok, isValidNumberVal, h]

theorem evGo_sub_step (a b : ℚ) (st : List ℚ) (rest : List (List Char))
    (h : isInSafeRange (a - b) = true) :
    evGo (b :: a :: st) (['-'] :: rest) = evGo ((a - b) :: st) rest := by
  simp [evGo, isValidNumber_sub_tok, isValidNumberVal, h]

theorem evGo_mul_step (a b : ℚ) (st : List ℚ) (rest : List (List Char))
    (h : isInSafeRange (a * b) = true) :
    evGo (b :: a :: st) (['*'] :: rest) = evGo ((a * b) :: st) rest := by
  simp [evGo, isValidNumber_mul_tok, isValidNumberVal, h]

theorem evGo_div_step (a b : ℚ) (st : List ℚ) (rest : List (List Char))
    (hb : b ≠ 0) (h : isInSafeRange (a / b) = true) :
    evGo (b :: a :: st) (['/'] :: rest) = evGo ((a / b) :: st) rest := by
  simp [evGo, isValidNumber_div_tok, isValidNumberVal, hb, h]

/-- `evaluatePostfix` loop: `/` with `b = 0` on top fails with
`DIVISION_BY_ZERO` before anything is computed. -/
theorem evGo_div_zero (a : ℚ) (st : List ℚ) (rest : List (List Char)) :
    evGo ((0 : ℚ) :: a :: st) (['/'] :: rest) = .error DIVISION_BY_ZERO := by
  simp [evGo, isValidNumber_div_tok]

/-- `evaluatePostfix` loop: an in-range number token is pushed. -/
theorem evGo_num_step (tok : List Char) (q : ℚ) (st : List ℚ) (rest : List (List Char))
    (hp : jsParseFloat tok = some q) (hr : isInSafeRange q = true) :
    evGo st (tok :: rest) = evGo (q :: st) rest := by
  simp [evGo, isValidNumber, hp, hr]

/-- `evaluatePostfix` loop: an out-of-range number token fails with the
`number outside safe range` message. -/
theorem evGo_num_range_err (tok : List Char) (q : ℚ) (st : List ℚ) (rest : List (List Char))
    (hp : jsParseFloat tok = some q) (hr : isInSafeRange q = false) :
    evGo st (tok :: rest) = .error numberOutOfRangeMsg := by
  simp [evGo, isValidNumber, hp, hr]

/-- `evaluatePostfix` loop: an out-of-range `+` result fails with the
`result outside safe range` message. -/
theorem evGo_add_range_err (a b : ℚ) (st : List ℚ) (rest : List (List Char))
    (h : isInSafeRange (a + b) = false) :
    evGo (b :: a :: st) (['+'] :: rest) = .error resultOutOfRangeMsg := by
  simp [evGo, isValidNumber_add_tok, isValidNumberVal, h]

theorem evGo_sub_range_err (a b : ℚ) (st : List ℚ) (rest : List (List Char))
    (h : isInSafeRange (a - b) = false) :
    evGo (b :: a :: st) (['-'] :: rest) = .error resultOutOfRangeMsg := by
  simp [evGo, isValidNumber_sub_tok, isValidNumberVal, h]

theorem evGo_mul_range_err (a b : ℚ) (st : List ℚ) (rest : List (List Char))
    (h : isInSafeRange (a * b) = false) :
    evGo (b :: a :: st) (['*'] :: rest) = .error resultOutOfRangeMsg := by
  simp [evGo, isValidNumber_mul_tok, isValidNumberVal, h]

theorem evGo_div_range_err (a b : ℚ) (st : List ℚ) (rest : List (List Char))
    (hb : b ≠ 0) (h : isInSafeRange (a / b) = false) :
    evGo (b :: a :: st) (['/'] :: rest) = .error resultOutOfRangeMsg := by
  simp [evGo, isValidNumber_div_tok, isValidNumberVal, hb, h]

/-- `evaluatePostfix` loop: with two operands available, a token that is
neither a number nor one of the four operators falls into the switch's
default case. -/
theorem evGo_invalid_op (tok : List Char) (b a : ℚ) (st : List ℚ) (rest : List (List Char))
    (h1 : isValidNumber tok = false) (h2 : tok ≠ ['+']) (h3 : tok ≠ ['-'])
    (h4 : tok ≠ ['*']) (h5 : tok ≠ ['/']) :
    evGo (b :: a :: st) (tok :: rest) = .error ("invalid operator: " ++ String.mk tok) := by
  simp [evGo, h1, h2, h3, h4, h5]

/-- `evaluatePostfix` final check: a stack without exactly one value fails
with `INVALID_EXPRESSION`. -/
theorem evGo_final_stack (st : List ℚ) (h : st.length ≠ 1) :
    evGo st [] = .error INVALID_EXPRESSION := by
  match st with
  | [] => simp [evGo]
  | [q] => simp at h
  | q1 :: q2 :: t => simp [evGo]

/-- `infixToPostfix` loop: an in-range number token goes to the output. -/
theorem syGo_num_step (tok : List Char) (q : ℚ) (out ops : List (List Char))
    (rest : List (List Char))
    (hp : jsParseFloat tok = some q) (hr : isInSafeRange q = true) :
    syGo (tok :: rest) out ops = syGo rest (out ++ [tok]) ops := by
  simp [syGo, isValidNumber, hp, hr]

/-- `infixToPostfix` loop: an out-of-range number token fails with the
`number outside safe range` message. -/
theorem syGo_num_range_err (tok : List Char) (q : ℚ) (out ops : List (List Char))
    (rest : List (List Char))
    (hp : jsParseFloat tok = some q) (hr : isInSafeRange q = false) :
    syGo (tok :: rest) out ops = .error numberOutOfRangeMsg := by
  simp [syGo, isValidNumber, hp, hr]

/-- Every element of `dropWhile p l` satisfying `p` is equivalent to every
element of `l` satisfying `p`. -/
theorem all_dropWhile_iff {α : Type} (p : α → Bool) (l : List α) :
    (∀ x ∈ l.dropWhile p, p x = true) ↔ (∀ x ∈ l, p x = true) := by
  constructor
  · intro h x hx
    rw [← List.takeWhile_append_dropWhile p l, List.mem_append] at hx
    rcases hx with hx | hx
    · exact List.mem_takeWhile_imp hx
    · exact h x hx
  · intro h x hx
    exact h x ((List.dropWhile_sublist p).mem hx)

/-- `trim` produces the empty string exactly on whitespace-only input. -/
theorem jsTrim_eq_nil_iff (cs : List Char) :
    jsTrim cs = [] ↔ ∀ c ∈ cs, jsWhitespace c = true := by
  unfold jsTrim
  rw [List.reverse_eq_nil_iff, List.dropWhile_eq_nil_iff]
  constructor
  · intro h
    rw [← all_dropWhile_iff jsWhitespace cs]
    intro c hc
    exact h c (List.mem_reverse.mpr hc)
  · intro h c hc
    exact (all_dropWhile_iff jsWhitespace cs).mpr h c (List.mem_reverse.mp hc)

/-- Unfolding of `parenBal` on a cons. -/
theorem parenBal_cons (ch : Char) (l : List Char) :
    parenBal (ch :: l) =
      (if ch = '(' then 1 else if ch = ')' then (-1 : Int) else 0) + parenBal l := rfl

/-- The parenthesis-counter loop errors exactly when the running counter
dips below zero after some (nonempty) prefix or is nonzero at the end. -/
theorem vpGo_error_iff (cs : List Char) : ∀ c : Int,
    vpGo c cs = .error MISMATCHED_PARENTHESES ↔
      ((∃ p, p <+: cs ∧ p ≠ [] ∧ c + parenBal p < 0) ∨ c + parenBal cs ≠ 0) := by
  induction cs with
  | nil =>
    intro c
    constructor
    · intro h
      right
      by_cases hc : c = 0
      · simp [vpGo, hc] at h
      · simpa [parenBal] using hc
    · rintro (⟨p, hp, hne, _⟩ | h)
      · exact absurd (List.prefix_nil.mp hp) hne
      · simp only [parenBal, add_zero] at h
        simp [vpGo, h]
  | cons ch rest ih =>
    intro c
    have hstep : (if ch = '(' then c + 1 else if ch = ')' then c - 1 else c) =
        c + (if ch = '(' then 1 else if ch = ')' then (-1 : Int) else 0) := by
      split_ifs <;> ring
    have hpref : (∃ p, p <+: ch :: rest ∧ p ≠ [] ∧ c + parenBal p < 0) ↔
        (∃ q, q <+: rest ∧
          (c + (if ch = '(' then 1 else if ch = ')' then (-1 : Int) else 0)) + parenBal q < 0) := by
      constructor
      · rintro ⟨p, hp, hne, hlt⟩
        match p, hne with
        | x :: q, _ =>
          rw [List.cons_prefix_cons] at hp
          obtain ⟨rfl, hq⟩ := hp
          refine ⟨q, hq, ?_⟩
          rw [parenBal_cons] at hlt
          omega
      · rintro ⟨q, hq, hlt⟩
        refine ⟨ch :: q, List.cons_prefix_cons.mpr ⟨rfl, hq⟩, by simp, ?_⟩
        rw [parenBal_cons]
        omega
    show (if (if ch = '(' then c + 1 else if ch = ')' then c - 1 else c) < 0 then
        Except.error MISMATCHED_PARENTHESES
      else vpGo (if ch = '(' then c + 1 else if ch = ')' then c - 1 else c) rest) =
        .error MISMATCHED_PARENTHESES ↔ _
    rw [hstep, parenBal_cons]
    generalize (if ch = '(' then 1 else if ch = ')' then (-1 : Int) else 0) = d at hpref ⊢
    by_cases hneg : c + d < 0
    · rw [if_pos hneg]
      constructor
      · intro _
        left
        rw [hpref]
        exact ⟨[], List.nil_prefix, by simpa [parenBal] using hneg⟩
      · intro _; rfl
    · rw [if_neg hneg, ih (c + d)]
      rw [hpref]
      constructor
      · rintro (⟨q, hq, _, hlt⟩ | h)
        · exact Or.inl ⟨q, hq, hlt⟩
        · right; omega
      · rintro (⟨q, hq, hlt⟩ | h)
        · rcases eq_or_ne q [] with rfl | hne
          · exact absurd (by simpa [parenBal] using hlt) hneg
          · exact Or.inl ⟨q, hq, hne, hlt⟩
        · right; omega

/-! ## Claim theorems -/

/-- C5: `validateParentheses` keeps a signed counter (+1 per `(`, −1 per
`)`) over the input and fails with `MISMATCHED_PARENTHESES` exactly when
the counter goes negative on some prefix or is nonzero at the end; it is
a pure function, so repeated calls agree; `calculate "(2+3"` and
`calculate "2+3)"` both fail with `MISMATCHED_PARENTHESES`. -/
theorem claim_C5 :
    (∀ s : List Char,
      (validateParenthesesCore s = .error MISMATCHED_PARENTHESES ↔
        ((∃ p, p <+: s ∧ parenBal p < 0) ∨ parenBal s ≠ 0)) ∧
      validateParenthesesCore s = validateParenthesesCore s) ∧
    calculate "(2+3" = .error MISMATCHED_PARENTHESES ∧
    calculate "2+3)" = .error MISMATCHED_PARENTHESES := by
  refine ⟨fun s => ⟨?_, rfl⟩, by with_unfolding_all rfl, by with_unfolding_all rfl⟩
  rw [validateParenthesesCore, vpGo_error_iff s 0]
  constructor
  · rintro (⟨p, hp, _, hlt⟩ | h)
    · exact Or.inl ⟨p, hp, by omega⟩
    · right; omega
  · rintro (⟨p, hp, hlt⟩ | h)
    · rcases eq_or_ne p [] with rfl | hne
      · simp [parenBal] at hlt
      · exact Or.inl ⟨p, hp, hne, by omega⟩
    · right; omega

/-- C7 counterexample: the input `"\t"` contains a character outside the
whitelist, yet `calculate` fails with `EMPTY_EXPRESSION`, not
`INVALID_EXPRESSION` (the whitespace-only check fires first), so the
claim's second "whenever" is false as stated. -/
theorem claim_C7_counterexample :
    calculate "\t" = .error EMPTY_EXPRESSION ∧
    (∃ c ∈ "\t".data, whitelistChar c = false) ∧
    EMPTY_EXPRESSION ≠ INVALID_EXPRESSION := by
  refine ⟨by with_unfolding_all rfl, ⟨'\t', by decide, by decide⟩, by decide⟩

/-- C7 (amended): `validateExpression` (hence `calculate`) fails with
`EMPTY_EXPRESSION` whenever the input is empty or whitespace-only
(`jsTrim` empties it), and fails with `InvalidExpression` whenever the
input is NOT whitespace-only and contains a character outside the
whitelist `[0-9+\-*\/.() ]`; `""` and `"   "` give `EMPTY_EXPRESSION`,
`"2+a"` gives `INVALID_EXPRESSION`. -/
theorem claim_C7 :
    (∀ cs : List Char, ((jsTrim cs).isEmpty = true ↔ ∀ c ∈ cs, jsWhitespace c = true)) ∧
    (∀ cs : List Char, (jsTrim cs).isEmpty = true →
      validateExpressionCore cs = .error EMPTY_EXPRESSION ∧
      calculateCore cs = .error EMPTY_EXPRESSION) ∧
    (∀ cs : List Char, (jsTrim cs).isEmpty = false →
      (∃ c ∈ cs, whitelistChar c = false) →
      validateExpressionCore cs = .error INVALID_EXPRESSION ∧
      calculateCore cs = .error INVALID_EXPRESSION) ∧
    calculate "" = .error EMPTY_EXPRESSION ∧
    calculate "   " = .error EMPTY_EXPRESSION ∧
    calculate "2+a" = .error INVALID_EXPRESSION := by
  refine ⟨?_, ?_, ?_, by with_unfolding_all rfl, by with_unfolding_all rfl,
    by with_unfolding_all rfl⟩
  · intro cs
    rw [List.isEmpty_iff, jsTrim_eq_nil_iff]
  · intro cs h
    have hv : validateExpressionCore cs = .error EMPTY_EXPRESSION := by
      simp [validateExpressionCore, h]
    exact ⟨hv, by simp [calculateCore, hv]⟩
  · intro cs h ⟨c, hc, hwc⟩
    have hne : cs.isEmpty = false := by
      rcases cs with _ | ⟨x, t⟩
      · simp [jsTrim] at h
      · rfl
    have hall : cs.all whitelistChar = false := by
      by_cases ha : cs.all whitelistChar = true
      · rw [List.all_eq_true] at ha
        exact absurd (ha c hc) (by simp [hwc])
      · simpa using ha
    have hv : validateExpressionCore cs = .error INVALID_EXPRESSION := by
      simp [validateExpressionCore, h, hne, hall]
    exact ⟨hv, by simp [calculateCore, hv]⟩

/-- The `while` loop of the operator case pops exactly the longest prefix
of the stack satisfying `popCond` and leaves the rest. -/
theorem popLoop_spec (pt : Nat) (ops : List (List Char)) : ∀ out,
    popLoop pt out ops =
      (out ++ ops.takeWhile (popCond pt), ops.dropWhile (popCond pt)) := by
  induction ops with
  | nil => intro out; simp [popLoop]
  | cons op rest ih =>
    intro out
    by_cases h : popCond pt op
    · simp [popLoop, h, List.takeWhile_cons, List.dropWhile_cons, ih]
    · simp [popLoop, h, List.takeWhile_cons, List.dropWhile_cons]

/-- A token with a defined precedence is one of the four operators. -/
theorem precedence_isSome_cases (tok : List Char) (pt : Nat)
    (h : precedence tok = some pt) :
    tok = ['+'] ∨ tok = ['-'] ∨ tok = ['*'] ∨ tok = ['/'] := by
  unfold precedence at h
  split_ifs at h with h1 h2 h3 h4
  · exact Or.inl h1
  · exact Or.inr (Or.inl h2)
  · exact Or.inr (Or.inr (Or.inl h3))
  · exact Or.inr (Or.inr (Or.inr h4))

/-- An operator token is not a number token. -/
theorem precedence_isSome_not_number (tok : List Char) (pt : Nat)
    (h : precedence tok = some pt) : isValidNumber tok = false := by
  rcases precedence_isSome_cases tok pt h with rfl | rfl | rfl | rfl
  · exact isValidNumber_add_tok
  · exact isValidNumber_sub_tok
  · exact isValidNumber_mul_tok
  · exact isValidNumber_div_tok

/-- C2: on an operator token the converter pops to the output exactly the
stack tops that are operators (`popCond` requires a defined precedence,
so `(` is never popped and survives into the kept part) of precedence ≥
the incoming one, then pushes the incoming operator; `*`/`/` outrank
`+`/`-`; and `calculate "2+3*4" = 14` (left-to-right with precedence). -/
theorem claim_C2 :
    (∀ (pt : Nat) (out ops : List (List Char)),
      popLoop pt out ops =
        (out ++ ops.takeWhile (popCond pt), ops.dropWhile (popCond pt))) ∧
    (∀ (pt : Nat) (op : List Char),
      popCond pt op = true ↔ ∃ q, precedence op = some q ∧ pt ≤ q) ∧
    (∀ (pt : Nat) (ops : List (List Char)), ['('] ∉ ops.takeWhile (popCond pt)) ∧
    (∀ (pt : Nat) (ops : List (List Char)) (out : List (List Char)),
      ['('] ∈ ops → ['('] ∈ (popLoop pt out ops).2) ∧
    (∀ (tok : List Char) (pt : Nat) (out ops rest : List (List Char)),
      precedence tok = some pt →
      syGo (tok :: rest) out ops =
        syGo rest (out ++ ops.takeWhile (popCond pt))
          (tok :: ops.dropWhile (popCond pt))) ∧
    precedence ['+'] = some 1 ∧ precedence ['-'] = some 1 ∧
    precedence ['*'] = some 2 ∧ precedence ['/'] = some 2 ∧
    calculate "2+3*4" = .ok 14 := by
  have hnotin : ∀ (pt : Nat) (ops : List (List Char)),
      ['('] ∉ ops.takeWhile (popCond pt) := by
    intro pt ops hmem
    have := List.mem_takeWhile_imp hmem
    simp [popCond, precedence] at this
  refine ⟨fun pt out ops => popLoop_spec pt ops out, ?_, hnotin, ?_, ?_,
    rfl, rfl, rfl, rfl, by with_unfolding_all rfl⟩
  · intro pt op
    unfold popCond
    match hop : precedence op with
    | some q => simp [hop]
    | none => simp [hop]
  · intro pt ops out hmem
    rw [popLoop_spec]
    have : ['('] ∈ ops.takeWhile (popCond pt) ++ ops.dropWhile (popCond pt) := by
      rw [List.takeWhile_append_dropWhile]; exact hmem
    rcases List.mem_append.mp this with hmem2 | hmem2
    · exact absurd hmem2 (hnotin pt ops)
    · exact hmem2
  · intro tok pt out ops rest h
    simp [syGo, precedence_isSome_not_number tok pt h, h, popLoop_spec]

/-- Witness for C2 at concrete inputs: the operator step of `syGo` on `+`
over the stack `['(']`, and `(` surviving `popLoop`. -/
theorem claim_C2_witness :
    (syGo [['+']] [] [['(']] =
      syGo [] ([] ++ ([['(']] : List (List Char)).takeWhile (popCond 1))
        (['+'] :: ([['(']] : List (List Char)).dropWhile (popCond 1))) ∧
    ['('] ∈ (popLoop 1 [] [['('], ['+']]).2 :=
  ⟨claim_C2.2.2.2.2.1 ['+'] 1 [] [['(']] [] rfl,
   claim_C2.2.2.2.1 1 [['('], ['+']] [] (by decide)⟩

/-- Prefixing `-` to a sign-free string negates its `parseFloat` value
(and preserves parse failure). -/
theorem jsParseFloat_neg (next : List Char)
    (hh : ∀ c, next.head? = some c → c ≠ '-' ∧ c ≠ '+') :
    jsParseFloat ('-' :: next) = (jsParseFloat next).map (fun q => -q) := by
  cases next with
  | nil => rfl
  | cons c t =>
    obtain ⟨hc1, hc2⟩ := hh c rfl
    have e2 : ¬((some c : Option Char) = some '-' ∨ (some c : Option Char) = some '+') := by
      rintro (h | h)
      · exact hc1 (by injection h)
      · exact hc2 (by injection h)
    have hd : (decide ((some c : Option Char) = some '-')) = false := by
      simp only [decide_eq_false_iff_not]
      intro h; exact hc1 (by injection h)
    simp only [jsParseFloat, List.head?_cons, List.tail_cons, if_pos (Or.inl rfl), if_neg e2,
      decide_eq_true_eq, hd]
    cases hM : parseMag (c :: t) with
    | none => simp [hM]
    | some q => simp [hM]

/-- The merge loop fuses a unary `-` with a following (sign-free) number
token and skips both. -/
theorem mergeGo_merge_step (prev : Option (List Char)) (next : List Char)
    (rest2 : List (List Char))
    (hu : unaryPos prev = true) (hn : isValidNumber next = true)
    (hh : ∀ c, next.head? = some c → c ≠ '-' ∧ c ≠ '+') :
    mergeGo prev (['-'] :: next :: rest2) =
      (mergeGo (some next) rest2).map (fun r => ('-' :: next) :: r) := by
  have hneg : isValidNumber ('-' :: next) = true := by
    rw [isValidNumber, jsParseFloat_neg next hh]
    rw [isValidNumber] at hn
    cases hp : jsParseFloat next with
    | none => rw [hp] at hn; simp at hn
    | some q => simp
  cases hM : mergeGo (some next) rest2 with
  | error e => simp [mergeGo, hu, hn, hneg, hM, Except.map]
  | ok r => simp [mergeGo, hu, hn, hneg, hM, Except.map]

/-- The merge loop keeps `-` as a standalone (binary) token when the
position is not unary or no number follows. -/
theorem mergeGo_binary_step (prev : Option (List Char)) (n : List Char)
    (l2 : List (List Char))
    (h : unaryPos prev = false ∨ isValidNumber n = false) :
    mergeGo prev (['-'] :: n :: l2) =
      (mergeGo (some ['-']) (n :: l2)).map (fun r => ['-'] :: r) := by
  rcases h with h | h <;>
    cases hM : mergeGo (some ['-']) (n :: l2) <;>
      simp [mergeGo, h, hM, Except.map]

/-- The merge loop passes any non-`-` token through unchanged. -/
theorem mergeGo_other_step (prev : Option (List Char)) (cur : List Char)
    (l : List (List Char)) (h : cur ≠ ['-']) :
    mergeGo prev (cur :: l) = (mergeGo (some cur) l).map (fun r => cur :: r) := by
  match l with
  | [] => simp [mergeGo, Except.map]
  | n :: l2 =>
    cases hM : mergeGo (some cur) (n :: l2) <;> simp [mergeGo, h, hM, Except.map]

/-- C3: in `mergeNegativeNumbers` a `-` is unary exactly when it is first
or preceded by `+`, `-`, `*`, `/` or `(`; a unary `-` followed by a
number token fuses with it (and the scan skips both); any other `-` is
kept standalone; `"-5+3" = -2`, `"5*-3" = -15`, `"5-3" = 2`. -/
theorem claim_C3 :
    (∀ prev : Option (List Char),
      unaryPos prev = true ↔
        (prev = none ∨ prev = some ['+'] ∨ prev = some ['-'] ∨ prev = some ['*'] ∨
          prev = some ['/'] ∨ prev = some ['('])) ∧
    (∀ (prev : Option (List Char)) (next : List Char) (rest2 : List (List Char)),
      unaryPos prev = true → isValidNumber next = true →
      (∀ c, next.head? = some c → c ≠ '-' ∧ c ≠ '+') →
      mergeGo prev (['-'] :: next :: rest2) =
        (mergeGo (some next) rest2).map (fun r => ('-' :: next) :: r)) ∧
    (∀ (prev : Option (List Char)) (n : List Char) (l2 : List (List Char)),
      unaryPos prev = false ∨ isValidNumber n = false →
      mergeGo prev (['-'] :: n :: l2) =
        (mergeGo (some ['-']) (n :: l2)).map (fun r => ['-'] :: r)) ∧
    (∀ prev : Option (List Char), mergeGo prev [['-']] = .ok [['-']]) ∧
    calculate "-5+3" = .ok (-2) ∧
    calculate "5*-3" = .ok (-15) ∧
    calculate "5-3" = .ok 2 := by
  refine ⟨?_, mergeGo_merge_step, mergeGo_binary_step, fun prev => rfl,
    by with_unfolding_all rfl, by with_unfolding_all rfl, by with_unfolding_all rfl⟩
  intro prev
  cases prev with
  | none => simp [unaryPos]
  | some p => simp [unaryPos]; tauto

/-- Witness for C3: a unary `-` before `5` at the start fuses into `-5`;
after the number `5` it stays binary. -/
theorem claim_C3_witness :
    (mergeGo none (['-'] :: ['5'] :: []) =
      (mergeGo (some ['5']) []).map (fun r => ('-' :: ['5']) :: r)) ∧
    (mergeGo (some ['5']) (['-'] :: ['3'] :: []) =
      (mergeGo (some ['-']) (['3'] :: [])).map (fun r => ['-'] :: r)) :=
  ⟨claim_C3.2.1 none ['5'] [] rfl (by decide)
      (by intro c hc; obtain rfl := (Option.some.inj hc).symm; exact ⟨by decide, by decide⟩),
   claim_C3.2.2.1 (some ['5']) ['3'] [] (Or.inl (by decide))⟩

/-- C4: in `evaluatePostfix` an operator with fewer than two stacked
operands fails with `MISSING_OPERAND`; otherwise it pops `b` then `a`
(so `a` is the operand pushed earlier) and computes `a+b`, `a-b`, `a*b`
or `a/b`; `/` with right operand `b = 0` fails `DIVISION_BY_ZERO` before
computing; `calculate "4/0"` fails with `DIVISION_BY_ZERO`. -/
theorem claim_C4 :
    (∀ (st : List ℚ) (tok : List Char) (rest : List (List Char)),
      (tok = ['+'] ∨ tok = ['-'] ∨ tok = ['*'] ∨ tok = ['/']) →
      st.length < 2 → evGo st (tok :: rest) = .error MISSING_OPERAND) ∧
    (∀ (a b : ℚ) (st : List ℚ) (rest : List (List Char)),
      (isInSafeRange (a + b) = true →
        evGo (b :: a :: st) (['+'] :: rest) = evGo ((a + b) :: st) rest) ∧
      (isInSafeRange (a - b) = true →
        evGo (b :: a :: st) (['-'] :: rest) = evGo ((a - b) :: st) rest) ∧
      (isInSafeRange (a * b) = true →
        evGo (b :: a :: st) (['*'] :: rest) = evGo ((a * b) :: st) rest) ∧
      (b ≠ 0 → isInSafeRange (a / b) = true →
        evGo (b :: a :: st) (['/'] :: rest) = evGo ((a / b) :: st) rest)) ∧
    (∀ (a : ℚ) (st : List ℚ) (rest : List (List Char)),
      evGo ((0 : ℚ) :: a :: st) (['/'] :: rest) = .error DIVISION_BY_ZERO) ∧
    calculate "4/0" = .error DIVISION_BY_ZERO := by
  refine ⟨?_, ?_, evGo_div_zero, by with_unfolding_all rfl⟩
  · intro st tok rest htok hlen
    have hnum : isValidNumber tok = false := by
      rcases htok with rfl | rfl | rfl | rfl
      · exact isValidNumber_add_tok
      · exact isValidNumber_sub_tok
      · exact isValidNumber_mul_tok
      · exact isValidNumber_div_tok
    exact evGo_short_stack st tok rest hnum hlen
  · intro a b st rest
    exact ⟨evGo_add_step a b st rest, evGo_sub_step a b st rest,
      evGo_mul_step a b st rest, evGo_div_step a b st rest⟩

/-- Witness for C4 at concrete inputs: `+` over the one-element stack
`[3]` is a missing operand; `+` over `b = 2, a = 4` computes `4 + 2`. -/
theorem claim_C4_witness :
    evGo [(3 : ℚ)] [['+']] = .error MISSING_OPERAND ∧
    evGo [(2 : ℚ), 4] [['+']] = evGo [((4 : ℚ) + 2)] [] :=
  ⟨claim_C4.1 [3] ['+'] [] (Or.inl rfl) (by decide),
   (claim_C4.2.1 4 2 [] []).1 (by with_unfolding_all rfl)⟩

/-- C6: the safe range is exactly ±(2^53 − 1); numbers read by the
converter and the evaluator, and every operator result, are range-checked
and fail with the `number/result outside safe range` messages (the
spec's `NumberOutOfRange`); the boundary literal succeeds and one unit
beyond fails. -/
theorem claim_C6 :
    MAX_NUMBER_VALUE = 2 ^ 53 - 1 ∧ MIN_NUMBER_VALUE = -(2 ^ 53 - 1) ∧
    (∀ q : ℚ, isInSafeRange q = true ↔ (-(2 ^ 53 - 1) ≤ q ∧ q ≤ 2 ^ 53 - 1)) ∧
    (∀ (tok : List Char) (q : ℚ) (out ops rest : List (List Char)),
      jsParseFloat tok = some q → isInSafeRange q = false →
      syGo (tok :: rest) out ops = .error numberOutOfRangeMsg) ∧
    (∀ (tok : List Char) (q : ℚ) (st : List ℚ) (rest : List (List Char)),
      jsParseFloat tok = some q → isInSafeRange q = false →
      evGo st (tok :: rest) = .error numberOutOfRangeMsg) ∧
    (∀ (a b : ℚ) (st : List ℚ) (rest : List (List Char)),
      (isInSafeRange (a + b) = false →
        evGo (b :: a :: st) (['+'] :: rest) = .error resultOutOfRangeMsg) ∧
      (isInSafeRange (a - b) = false →
        evGo (b :: a :: st) (['-'] :: rest) = .error resultOutOfRangeMsg) ∧
      (isInSafeRange (a * b) = false →
        evGo (b :: a :: st) (['*'] :: rest) = .error resultOutOfRangeMsg) ∧
      (b ≠ 0 → isInSafeRange (a / b) = false →
        evGo (b :: a :: st) (['/'] :: rest) = .error resultOutOfRangeMsg)) ∧
    calculate "9007199254740991" = .ok 9007199254740991 ∧
    calculate "9007199254740992" = .error numberOutOfRangeMsg := by
  refine ⟨by norm_num [MAX_NUMBER_VALUE], by norm_num [MIN_NUMBER_VALUE], ?_,
    syGo_num_range_err, evGo_num_range_err, ?_,
    by with_unfolding_all rfl, by with_unfolding_all rfl⟩
  · intro q
    rw [isInSafeRange, Bool.and_eq_true, decide_eq_true_eq, decide_eq_true_eq]
    constructor
    · rintro ⟨h1, h2⟩
      constructor
      · calc -((2:ℚ) ^ 53 - 1) = MIN_NUMBER_VALUE := by norm_num [MIN_NUMBER_VALUE]
          _ ≤ q := h1
      · calc q ≤ MAX_NUMBER_VALUE := h2
          _ = 2 ^ 53 - 1 := by norm_num [MAX_NUMBER_VALUE]
    · rintro ⟨h1, h2⟩
      constructor
      · calc MIN_NUMBER_VALUE = -((2:ℚ) ^ 53 - 1) := by norm_num [MIN_NUMBER_VALUE]
          _ ≤ q := h1
      · calc q ≤ (2:ℚ) ^ 53 - 1 := h2
          _ = MAX_NUMBER_VALUE := by norm_num [MAX_NUMBER_VALUE]
  · intro a b st rest
    exact ⟨evGo_add_range_err a b st rest, evGo_sub_range_err a b st rest,
      evGo_mul_range_err a b st rest, evGo_div_range_err a b st rest⟩

/-- Witness for C6 at concrete inputs: the literal `9007199254740992`
fails the range check when read by the evaluator, and `isInSafeRange`
agrees with the ±(2^53 − 1) bounds at `3`. -/
theorem claim_C6_witness :
    evGo [] [('9' :: "007199254740992".data)] = .error numberOutOfRangeMsg ∧
    (isInSafeRange 3 = true ↔ (-((2:ℚ) ^ 53 - 1) ≤ 3 ∧ (3:ℚ) ≤ 2 ^ 53 - 1)) :=
  ⟨claim_C6.2.2.2.2.1 ('9' :: "007199254740992".data) 9007199254740992 []
      [] (by with_unfolding_all rfl) (by with_unfolding_all rfl),
   claim_C6.2.2.1 3⟩

/-- C8 counterexample: `evaluatePostfix "5 %"` meets a token that is
neither a number nor one of the four operators, but with only one
operand on the stack it fails with `MISSING_OPERAND` (the stack-size
guard runs first), which is not of the spec's `InvalidExpression`
kind — so the claim's universal statement is false as written. -/
theorem claim_C8_counterexample :
    evaluatePostfix "5 %" = .error MISSING_OPERAND ∧
    isInvalidExprKind MISSING_OPERAND = false := by
  exact ⟨by with_unfolding_all rfl, by decide⟩

/-- C8 (amended): with at least two operands on the stack, a token that
is neither a valid number nor one of `+ - * /` fails with
`invalid operator: <tok>` (an `InvalidExpression`-kind message — with
fewer than two operands `MISSING_OPERAND` fires first); and after all
tokens a stack holding anything but exactly one value fails with
`INVALID_EXPRESSION`; `evaluatePostfix "2 3 %"` fails that way. -/
theorem claim_C8 :
    (∀ (tok : List Char) (b a : ℚ) (st : List ℚ) (rest : List (List Char)),
      isValidNumber tok = false → tok ≠ ['+'] → tok ≠ ['-'] → tok ≠ ['*'] →
      tok ≠ ['/'] →
      evGo (b :: a :: st) (tok :: rest) = .error ("invalid operator: " ++ String.mk tok) ∧
      isInvalidExprKind ("invalid operator: " ++ String.mk tok) = true) ∧
    (∀ st : List ℚ, st.length ≠ 1 → evGo st [] = .error INVALID_EXPRESSION) ∧
    isInvalidExprKind INVALID_EXPRESSION = true ∧
    evaluatePostfix "2 3 %" = .error ("invalid operator: " ++ "%") ∧
    isInvalidExprKind ("invalid operator: " ++ "%") = true := by
  refine ⟨?_, evGo_final_stack, by decide, by with_unfolding_all rfl, by decide⟩
  intro tok b a st rest h1 h2 h3 h4 h5
  refine ⟨evGo_invalid_op tok b a st rest h1 h2 h3 h4 h5, ?_⟩
  rw [isInvalidExprKind]
  have hpref : List.isPrefixOf ("invalid operator: ".data)
      ("invalid operator: " ++ String.mk tok).data = true := by
    rw [List.isPrefixOf_iff_prefix]
    exact ⟨(String.mk tok).data, (String.data_append _ _).symm⟩
  simp [hpref]

/-- Witness for C8 at concrete inputs: the `%` token with two operands. -/
theorem claim_C8_witness :
    (evGo [(3 : ℚ), 2] [['%']] = .error ("invalid operator: " ++ String.mk ['%']) ∧
      isInvalidExprKind ("invalid operator: " ++ String.mk ['%']) = true) ∧
    evGo ([] : List ℚ) [] = .error INVALID_EXPRESSION :=
  ⟨claim_C8.1 ['%'] 3 2 [] [] (by decide) (by decide) (by decide) (by decide) (by decide),
   claim_C8.2.1 [] (by decide)⟩

/-- C10: a `.` that is not part of a numeric literal passes the
validator's whitelist but is silently dropped by the tokenizer, so
`calculate` succeeds on such inputs: `"5.+3"` gives `8` (tokens
`5`, `+`, `3`) and `"5."` gives `5` (token `5`). -/
theorem claim_C10 :
    validateExpression "5.+3" = .ok () ∧
    tokenizeCore "5.+3".data = [['5'], ['+'], ['3']] ∧
    calculate "5.+3" = .ok 8 ∧
    validateExpression "5." = .ok () ∧
    tokenizeCore "5.".data = [['5']] ∧
    calculate "5." = .ok 5 := by
  refine ⟨by with_unfolding_all rfl, by decide, by with_unfolding_all rfl,
    by with_unfolding_all rfl, by decide, by with_unfolding_all rfl⟩

/-- A push never grows the history beyond `MAX_HISTORY` when it was within
the cap before. -/
theorem pushToHistory_length_le (h : List HistoryEntry) (e : PushInput)
    (hh : h.length ≤ MAX_HISTORY) :
    ((pushToHistory h e).2).length ≤ MAX_HISTORY := by
  unfold pushToHistory
  by_cases hx : e.expression = ""
  · simpa [hx] using hh
  · rw [if_neg hx]
    cases hres : e.result with
    | none => simpa using hh
    | some v =>
      cases v with
      | num q =>
        by_cases hcap : MAX_HISTORY < (h ++ [({ expression := String.mk (jsTrim e.expression.data), result := q } : HistoryEntry)]).length
        · simp only [hcap, if_pos]
          simp only [List.length_drop, List.length_append, List.length_cons,
            List.length_nil]
          omega
        · simp only [hcap, if_neg, if_false]
          simp only [List.length_append, List.length_cons, List.length_nil] at hcap ⊢
          omega
      | nan => simpa using hh
      | inf => simpa using hh
      | ninf => simpa using hh
      | str s => simpa using hh

/-- Removing an entry never grows the history. -/
theorem removeEntryByIndex_length_le (h : List HistoryEntry) (i : Int) :
    ((removeEntryByIndex h i).2).length ≤ h.length := by
  unfold removeEntryByIndex
  split_ifs with hc
  · simp
  · simp only [List.length_eraseIdx]
    split_ifs <;> omega

/-- C9: `pushToHistory` rejects a result that is not a finite number
(missing, string, `NaN`, `±Infinity`), leaving the history unchanged;
a successful push appends at the newest end, and at the cap of 10 evicts
the oldest entry first; consequently any sequence of push/remove/clear
operations keeps the count at most 10. -/
theorem claim_C9 :
    (∀ (h : List HistoryEntry) (e : PushInput),
      (∀ q : ℚ, e.result ≠ some (JSValue.num q)) →
      (pushToHistory h e).2 = h ∧ ∃ msg, (pushToHistory h e).1 = .error msg) ∧
    (∀ (h : List HistoryEntry) (e : PushInput),
      h.length ≤ MAX_HISTORY → ((pushToHistory h e).2).length ≤ MAX_HISTORY) ∧
    (∀ (h : List HistoryEntry) (e : PushInput) (q : ℚ),
      e.expression ≠ "" → e.result = some (JSValue.num q) →
      h.length < MAX_HISTORY →
      (pushToHistory h e).2 =
        h ++ [{ expression := String.mk (jsTrim e.expression.data), result := q }]) ∧
    (∀ (h : List HistoryEntry) (e : PushInput) (q : ℚ),
      e.expression ≠ "" → e.result = some (JSValue.num q) →
      h.length = MAX_HISTORY →
      (pushToHistory h e).2 =
        h.drop 1 ++ [{ expression := String.mk (jsTrim e.expression.data), result := q }]) ∧
    (∀ (h : List HistoryEntry) (ops : List HistoryOp),
      h.length ≤ MAX_HISTORY → (runHistoryOps h ops).length ≤ MAX_HISTORY) := by
  refine ⟨?_, pushToHistory_length_le, ?_, ?_, ?_⟩
  · intro h e hr
    unfold pushToHistory
    by_cases hx : e.expression = ""
    · simp [hx]
    · rw [if_neg hx]
      cases hres : e.result with
      | none => simp
      | some v =>
        cases v with
        | num q => exact absurd hres (hr q)
        | nan => simp
        | inf => simp
        | ninf => simp
        | str s => simp
  · intro h e q hx hres hlen
    unfold pushToHistory
    rw [if_neg hx, hres]
    have hne : ¬ MAX_HISTORY <
        (h ++ [({ expression := String.mk (jsTrim e.expression.data), result := q } : HistoryEntry)]).length := by
      simp only [List.length_append, List.length_cons, List.length_nil]
      omega
    dsimp only
    rw [if_neg hne]
  · intro h e q hx hres hlen
    unfold pushToHistory
    rw [if_neg hx, hres]
    have h10 : h.length = 10 := by simpa [MAX_HISTORY] using hlen
    have hcap : MAX_HISTORY <
        (h ++ [({ expression := String.mk (jsTrim e.expression.data), result := q } : HistoryEntry)]).length := by
      simp only [List.length_append, List.length_cons, List.length_nil]
      omega
    have hdrop : (h ++ [({ expression := String.mk (jsTrim e.expression.data), result := q } : HistoryEntry)]).drop 1 =
        h.drop 1 ++ [({ expression := String.mk (jsTrim e.expression.data), result := q } : HistoryEntry)] := by
      refine List.drop_append_of_le_length ?_
      omega
    dsimp only
    rw [if_pos hcap]
    simpa using hdrop
  · intro h ops
    induction ops generalizing h with
    | nil => intro hh; simpa [runHistoryOps] using hh
    | cons op rest ih =>
      intro hh
      rw [runHistoryOps, List.foldl_cons]
      refine ih (applyHistoryOp h op) ?_
      cases op with
      | push e => exact pushToHistory_length_le h e hh
      | remove i => exact le_trans (removeEntryByIndex_length_le h i) hh
      | clear => simp [applyHistoryOp, clearHistory]

/-- Witness for C9 at concrete inputs: a push with a `NaN` result on the
empty history is rejected and leaves it empty; ten pushes and a remove
keep the count within 10. -/
theorem claim_C9_witness :
    ((pushToHistory [] { expression := "1+1", result := some JSValue.nan }).2 = [] ∧
      ∃ msg, (pushToHistory [] { expression := "1+1", result := some JSValue.nan }).1 = .error msg) ∧
    (runHistoryOps []
        [HistoryOp.push { expression := "1+1", result := some (JSValue.num 2) },
         HistoryOp.remove 0, HistoryOp.clear]).length ≤ MAX_HISTORY :=
  ⟨claim_C9.1 [] { expression := "1+1", result := some JSValue.nan }
      (fun q hq => by simp at hq),
   claim_C9.2.2.2.2 []
      [HistoryOp.push { expression := "1+1", result := some (JSValue.num 2) },
       HistoryOp.remove 0, HistoryOp.clear] (by decide)⟩


/-! ## Round-trip development (C1) -/

/-- Digit characters decode back to their digit value. -/
theorem toNat_digitChar (d : Nat) (h : d < 10) :
    (Char.ofNat (48 + d)).toNat = 48 + d := by
  interval_cases d <;> decide

/-- Digit characters are digits. -/
theorem isDigit_digitChar (d : Nat) (h : d < 10) :
    (Char.ofNat (48 + d)).isDigit = true := by
  interval_cases d <;> decide

theorem natChars_digits (n : Nat) : ∀ c ∈ natChars n, c.isDigit = true := by
  intro c hc
  unfold natChars at hc
  split_ifs at hc with h0
  · simp at hc
    subst hc
    decide
  · rw [List.mem_map] at hc
    obtain ⟨d, hd, rfl⟩ := hc
    exact isDigit_digitChar d (Nat.digits_lt_base (by norm_num) (List.mem_reverse.mp hd))

theorem natChars_ne_nil (n : Nat) : natChars n ≠ [] := by
  unfold natChars
  split_ifs with h0
  · simp
  · simp [List.reverse_eq_nil_iff, Nat.digits_ne_nil_iff_ne_zero.mpr h0]

/-- A digit is not whitespace. -/
theorem isDigit_not_ws (c : Char) (h : c.isDigit = true) : jsWhitespace c = false := by
  by_cases hw : jsWhitespace c = true
  · simp only [jsWhitespace, Bool.or_eq_true, decide_eq_true_eq] at hw
    rcases hw with ((((rfl | rfl) | rfl) | rfl) | rfl) | rfl <;> simp at h
  · simpa using hw

/-- A digit is in the validator's whitelist. -/
theorem isDigit_whitelist (c : Char) (h : c.isDigit = true) : whitelistChar c = true := by
  simp [whitelistChar, h]

/-- A digit is not one of the six operator/parenthesis characters and not
a dot, a minus or a plus. -/
theorem isDigit_ne (c : Char) (h : c.isDigit = true) :
    c ≠ '.' ∧ c ≠ '-' ∧ c ≠ '+' ∧ c ≠ '(' ∧ c ≠ ')' ∧ c ≠ ' ' := by
  refine ⟨?_, ?_, ?_, ?_, ?_, ?_⟩ <;> (rintro rfl; simp at h)

/-- Folding the decimal accumulator over digit characters equals folding
it over the digit values. -/
theorem foldl_digitChars (l : List Nat) (hl : ∀ d ∈ l, d < 10) : ∀ a : Nat,
    (l.map fun d => Char.ofNat (48 + d)).foldl (fun a c => 10 * a + (c.toNat - 48)) a =
      l.foldl (fun a d => 10 * a + d) a := by
  induction l with
  | nil => intro a; rfl
  | cons d l' ih =>
    intro a
    have hd : d < 10 := hl d (by simp)
    simp only [List.map_cons, List.foldl_cons, toNat_digitChar d hd]
    rw [ih (fun x hx => hl x (by simp [hx]))]
    congr 1
    omega

/-- Folding the decimal accumulator over the reversed little-endian digit
list recovers `Nat.ofDigits`. -/
theorem foldl_reverse_ofDigits (L : List Nat) :
    L.reverse.foldl (fun a d => 10 * a + d) 0 = Nat.ofDigits 10 L := by
  induction L with
  | nil => rfl
  | cons d L' ih =>
    rw [List.reverse_cons, List.foldl_append, ih, Nat.ofDigits_cons]
    simp only [List.foldl_cons, List.foldl_nil]
    omega

theorem parseDigitsNat_natChars (n : Nat) : parseDigitsNat (natChars n) = n := by
  unfold natChars parseDigitsNat
  split_ifs with h0
  · subst h0; decide
  · rw [foldl_digitChars _ (fun d hd => Nat.digits_lt_base (by norm_num) (List.mem_reverse.mp hd)) 0]
    rw [foldl_reverse_ofDigits]
    exact Nat.ofDigits_digits 10 n

/-- `takeWhile`/`dropWhile` on a list whose elements all satisfy `p`. -/
theorem takeWhile_all {α : Type} (p : α → Bool) (l : List α)
    (h : ∀ x ∈ l, p x = true) :
    l.takeWhile p = l ∧ l.dropWhile p = [] :=
  ⟨List.takeWhile_eq_self_iff.mpr h, List.dropWhile_eq_nil_iff.mpr h⟩

/-- `parseFloat` on a pure digit string (with at least one digit) returns
its decimal value. -/
theorem jsParseFloat_digits (ds : List Char) (hne : ds ≠ [])
    (hds : ∀ c ∈ ds, c.isDigit = true) :
    jsParseFloat ds = some ((parseDigitsNat ds : ℚ)) := by
  obtain ⟨c, t, rfl⟩ : ∃ c t, ds = c :: t := by
    cases ds with
    | nil => exact absurd rfl hne
    | cons c t => exact ⟨c, t, rfl⟩
  have hc : c.isDigit = true := hds c (by simp)
  obtain ⟨_, hc2, hc3, _, _, _⟩ := isDigit_ne c hc
  have hsign : ¬((c :: t).head? = some '-' ∨ (c :: t).head? = some '+') := by
    rintro (h | h) <;> simp at h
    · exact hc2 h
    · exact hc3 h
  have hdec : (decide ((c :: t).head? = some '-')) = false := by
    simp only [decide_eq_false_iff_not]
    intro h
    simp at h
    exact hc2 h
  obtain ⟨htw, hdw⟩ := takeWhile_all Char.isDigit (c :: t) hds
  simp only [jsParseFloat, hdec, if_neg hsign, parseMag, htw, hdw]
  have : (c :: t).isEmpty = false := rfl
  simp [this]

theorem jsParseFloat_natChars (n : Nat) :
    jsParseFloat (natChars n) = some ((n : ℚ)) := by
  rw [jsParseFloat_digits (natChars n) (natChars_ne_nil n) (natChars_digits n),
    parseDigitsNat_natChars]

theorem isValidNumber_natChars (n : Nat) : isValidNumber (natChars n) = true := by
  simp [isValidNumber, jsParseFloat_natChars]

/-- `takeWhile`/`dropWhile` across an append whose left part is all-`p`. -/
theorem takeWhile_append_all {α : Type} (p : α → Bool) (xs ys : List α)
    (h : ∀ x ∈ xs, p x = true) :
    (xs ++ ys).takeWhile p = xs ++ ys.takeWhile p ∧
      (xs ++ ys).dropWhile p = ys.dropWhile p := by
  induction xs with
  | nil => exact ⟨rfl, rfl⟩
  | cons x xs' ih =>
    have hx : p x = true := h x (by simp)
    have ih' := ih (fun y hy => h y (by simp [hy]))
    simp [List.takeWhile_cons, List.dropWhile_cons, hx, ih'.1, ih'.2]

/-- The six single-character tokens are neither digits nor dots. -/
theorem sixChar_not_digit (c : Char) (h : sixChar c = true) :
    c.isDigit = false ∧ c ≠ '.' := by
  simp only [sixChar, Bool.or_eq_true, decide_eq_true_eq] at h
  rcases h with ((((rfl | rfl) | rfl) | rfl) | rfl) | rfl <;> exact ⟨by decide, by decide⟩

/-- Scanner: a single-character token at the top level. -/
theorem scanTokens_top_six (c : Char) (rest : List Char) (h : sixChar c = true) :
    scanTokens .top (c :: rest) = [c] :: scanTokens .top rest := by
  obtain ⟨hd, _⟩ := sixChar_not_digit c h
  rw [scanTokens.eq_def]
  simp [hd, h]

/-- Scanner: inside a number, a maximal digit run followed by nothing or a
single-character token emits the accumulated number. -/
theorem scanTokens_int (ds : List Char) :
    ∀ (acc rest : List Char),
    (∀ c ∈ ds, c.isDigit = true) →
    (rest = [] ∨ ∃ c r', rest = c :: r' ∧ sixChar c = true) →
    scanTokens (.intPart acc) (ds ++ rest) =
      (acc.reverse ++ ds) :: scanTokens .top rest := by
  induction ds with
  | nil =>
    intro acc rest _ hrest
    rcases hrest with rfl | ⟨c, r', rfl, hc⟩
    · rw [List.append_nil, scanTokens.eq_def]
      simp [scanTokens]
    · obtain ⟨hd, hdot⟩ := sixChar_not_digit c hc
      rw [List.nil_append, scanTokens.eq_def]
      simp [hd, hc, hdot, scanTokens_top_six c r' hc]
  | cons d ds' ih =>
    intro acc rest hds hrest
    have hd : d.isDigit = true := hds d (by simp)
    have step : scanTokens (.intPart acc) ((d :: ds') ++ rest) =
        scanTokens (.intPart (d :: acc)) (ds' ++ rest) := by
      rw [List.cons_append, scanTokens.eq_def]
      simp [hd]
    rw [step, ih (d :: acc) rest (fun c hc => hds c (by simp [hc])) hrest]
    simp

/-- Scanner: a maximal digit run at the top level followed by nothing or a
single-character token is one number token. -/
theorem scanTokens_top_num (ds rest : List Char) (hne : ds ≠ [])
    (hds : ∀ c ∈ ds, c.isDigit = true)
    (hrest : rest = [] ∨ ∃ c r', rest = c :: r' ∧ sixChar c = true) :
    scanTokens .top (ds ++ rest) = ds :: scanTokens .top rest := by
  obtain ⟨d, ds', rfl⟩ : ∃ d ds', ds = d :: ds' := by
    cases ds with
    | nil => exact absurd rfl hne
    | cons d ds' => exact ⟨d, ds', rfl⟩
  have hd : d.isDigit = true := hds d (by simp)
  have step : scanTokens .top ((d :: ds') ++ rest) =
      scanTokens (.intPart [d]) (ds' ++ rest) := by
    rw [List.cons_append, scanTokens.eq_def]
    simp [hd]
  rw [step, scanTokens_int ds' [d] rest (fun c hc => hds c (by simp [hc])) hrest]
  simp

/-- The tokenizer on a rendered expression yields exactly its token list,
for any continuation starting with an operator/parenthesis character. -/
theorem tokenize_render (e : AExp) : ∀ rest : List Char,
    (rest = [] ∨ ∃ c r', rest = c :: r' ∧ sixChar c = true) →
    scanTokens .top (renderInfix e ++ rest) =
      infixTokens e ++ scanTokens .top rest := by
  induction e with
  | num n =>
    intro rest hrest
    exact scanTokens_top_num (natChars n) rest (natChars_ne_nil n) (natChars_digits n) hrest
  | add a b iha ihb =>
    intro rest hrest
    show scanTokens .top (('(' :: (renderInfix a ++ '+' :: (renderInfix b ++ [')']))) ++ rest) = _
    rw [List.cons_append, scanTokens_top_six '(' _ (by decide)]
    have e1 : (renderInfix a ++ '+' :: (renderInfix b ++ [')'])) ++ rest =
        renderInfix a ++ ('+' :: (renderInfix b ++ (')' :: rest))) := by
      simp
    rw [e1, iha ('+' :: (renderInfix b ++ (')' :: rest))) (Or.inr ⟨'+', _, rfl, by decide⟩),
      scanTokens_top_six '+' _ (by decide),
      ihb (')' :: rest) (Or.inr ⟨')', rest, rfl, by decide⟩),
      scanTokens_top_six ')' rest (by decide)]
    simp [infixTokens]
  | sub a b iha ihb =>
    intro rest hrest
    show scanTokens .top (('(' :: (renderInfix a ++ '-' :: (renderInfix b ++ [')']))) ++ rest) = _
    rw [List.cons_append, scanTokens_top_six '(' _ (by decide)]
    have e1 : (renderInfix a ++ '-' :: (renderInfix b ++ [')'])) ++ rest =
        renderInfix a ++ ('-' :: (renderInfix b ++ (')' :: rest))) := by
      simp
    rw [e1, iha ('-' :: (renderInfix b ++ (')' :: rest))) (Or.inr ⟨'-', _, rfl, by decide⟩),
      scanTokens_top_six '-' _ (by decide),
      ihb (')' :: rest) (Or.inr ⟨')', rest, rfl, by decide⟩),
      scanTokens_top_six ')' rest (by decide)]
    simp [infixTokens]
  | mul a b iha ihb =>
    intro rest hrest
    show scanTokens .top (('(' :: (renderInfix a ++ '*' :: (renderInfix b ++ [')']))) ++ rest) = _
    rw [List.cons_append, scanTokens_top_six '(' _ (by decide)]
    have e1 : (renderInfix a ++ '*' :: (renderInfix b ++ [')'])) ++ rest =
        renderInfix a ++ ('*' :: (renderInfix b ++ (')' :: rest))) := by
      simp
    rw [e1, iha ('*' :: (renderInfix b ++ (')' :: rest))) (Or.inr ⟨'*', _, rfl, by decide⟩),
      scanTokens_top_six '*' _ (by decide),
      ihb (')' :: rest) (Or.inr ⟨')', rest, rfl, by decide⟩),
      scanTokens_top_six ')' rest (by decide)]
    simp [infixTokens]
  | div a b iha ihb =>
    intro rest hrest
    show scanTokens .top (('(' :: (renderInfix a ++ '/' :: (renderInfix b ++ [')']))) ++ rest) = _
    rw [List.cons_append, scanTokens_top_six '(' _ (by decide)]
    have e1 : (renderInfix a ++ '/' :: (renderInfix b ++ [')'])) ++ rest =
        renderInfix a ++ ('/' :: (renderInfix b ++ (')' :: rest))) := by
      simp
    rw [e1, iha ('/' :: (renderInfix b ++ (')' :: rest))) (Or.inr ⟨'/', _, rfl, by decide⟩),
      scanTokens_top_six '/' _ (by decide),
      ihb (')' :: rest) (Or.inr ⟨')', rest, rfl, by decide⟩),
      scanTokens_top_six ')' rest (by decide)]
    simp [infixTokens]

/-- The parenthesis counter ignores non-parenthesis characters and never
trips on them while nonnegative. -/
theorem vpGo_skip (ds : List Char)
    (h : ∀ ch ∈ ds, ch ≠ '(' ∧ ch ≠ ')') :
    ∀ (c : Int) (rest : List Char), 0 ≤ c →
    vpGo c (ds ++ rest) = vpGo c rest := by
  induction ds with
  | nil => intro c rest _; rfl
  | cons ch ds' ih =>
    intro c rest hc
    obtain ⟨h1, h2⟩ := h ch (by simp)
    show (if (if ch = '(' then c + 1 else if ch = ')' then c - 1 else c) < 0 then
        Except.error MISMATCHED_PARENTHESES
      else vpGo (if ch = '(' then c + 1 else if ch = ')' then c - 1 else c) (ds' ++ rest)) = _
    rw [if_neg h1, if_neg h2, if_neg (by omega)]
    exact ih (fun x hx => h x (by simp [hx])) c rest hc

/-- Rendered expressions are balanced: scanning them leaves the counter
unchanged (started nonnegative, it never trips). -/
theorem vpGo_render (e : AExp) : ∀ (c : Int) (rest : List Char), 0 ≤ c →
    vpGo c (renderInfix e ++ rest) = vpGo c rest := by
  induction e with
  | num n =>
    intro c rest hc
    refine vpGo_skip (natChars n) ?_ c rest hc
    intro ch hch
    obtain ⟨_, _, _, h4, h5, _⟩ := isDigit_ne ch (natChars_digits n ch hch)
    exact ⟨h4, h5⟩
  | add a b iha ihb =>
    intro c rest hc
    show vpGo c (('(' :: (renderInfix a ++ '+' :: (renderInfix b ++ [')']))) ++ rest) = _
    rw [List.cons_append]
    show (if (if '(' = '(' then c + 1 else if '(' = ')' then c - 1 else c) < 0 then
        Except.error MISMATCHED_PARENTHESES
      else vpGo (if '(' = '(' then c + 1 else if '(' = ')' then c - 1 else c)
        ((renderInfix a ++ '+' :: (renderInfix b ++ [')'])) ++ rest)) = _
    rw [if_pos rfl, if_neg (by omega)]
    have e1 : (renderInfix a ++ '+' :: (renderInfix b ++ [')'])) ++ rest =
        renderInfix a ++ ('+' :: (renderInfix b ++ (')' :: rest))) := by simp
    rw [e1, iha (c + 1) _ (by omega)]
    show (if (if '+' = '(' then c + 1 + 1 else if '+' = ')' then c + 1 - 1 else c + 1) < 0 then
        Except.error MISMATCHED_PARENTHESES
      else vpGo (if '+' = '(' then c + 1 + 1 else if '+' = ')' then c + 1 - 1 else c + 1)
        (renderInfix b ++ (')' :: rest))) = _
    rw [if_neg (show ¬('+' : Char) = '(' by decide), if_neg (show ¬('+' : Char) = ')' by decide),
      if_neg (show ¬(c + 1 < 0) by omega)]
    rw [ihb (c + 1) _ (by omega)]
    show (if (if ')' = '(' then c + 1 + 1 else if ')' = ')' then c + 1 - 1 else c + 1) < 0 then
        Except.error MISMATCHED_PARENTHESES
      else vpGo (if ')' = '(' then c + 1 + 1 else if ')' = ')' then c + 1 - 1 else c + 1) rest) = _
    rw [if_neg (show ¬(')' : Char) = '(' by decide), if_pos (show (')' : Char) = ')' from rfl),
      if_neg (show ¬(c + 1 - 1 < 0) by omega)]
    norm_num
  | sub a b iha ihb =>
    intro c rest hc
    show vpGo c (('(' :: (renderInfix a ++ '-' :: (renderInfix b ++ [')']))) ++ rest) = _
    rw [List.cons_append]
    show (if (if '(' = '(' then c + 1 else if '(' = ')' then c - 1 else c) < 0 then
        Except.error MISMATCHED_PARENTHESES
      else vpGo (if '(' = '(' then c + 1 else if '(' = ')' then c - 1 else c)
        ((renderInfix a ++ '-' :: (renderInfix b ++ [')'])) ++ rest)) = _
    rw [if_pos rfl, if_neg (by omega)]
    have e1 : (renderInfix a ++ '-' :: (renderInfix b ++ [')'])) ++ rest =
        renderInfix a ++ ('-' :: (renderInfix b ++ (')' :: rest))) := by simp
    rw [e1, iha (c + 1) _ (by omega)]
    show (if (if '-' = '(' then c + 1 + 1 else if '-' = ')' then c + 1 - 1 else c + 1) < 0 then
        Except.error MISMATCHED_PARENTHESES
      else vpGo (if '-' = '(' then c + 1 + 1 else if '-' = ')' then c + 1 - 1 else c + 1)
        (renderInfix b ++ (')' :: rest))) = _
    rw [if_neg (show ¬('-' : Char) = '(' by decide), if_neg (show ¬('-' : Char) = ')' by decide),
      if_neg (show ¬(c + 1 < 0) by omega)]
    rw [ihb (c + 1) _ (by omega)]
    show (if (if ')' = '(' then c + 1 + 1 else if ')' = ')' then c + 1 - 1 else c + 1) < 0 then
        Except.error MISMATCHED_PARENTHESES
      else vpGo (if ')' = '(' then c + 1 + 1 else if ')' = ')' then c + 1 - 1 else c + 1) rest) = _
    rw [if_neg (show ¬(')' : Char) = '(' by decide), if_pos (show (')' : Char) = ')' from rfl),
      if_neg (show ¬(c + 1 - 1 < 0) by omega)]
    norm_num
  | mul a b iha ihb =>
    intro c rest hc
    show vpGo c (('(' :: (renderInfix a ++ '*' :: (renderInfix b ++ [')']))) ++ rest) = _
    rw [List.cons_append]
    show (if (if '(' = '(' then c + 1 else if '(' = ')' then c - 1 else c) < 0 then
        Except.error MISMATCHED_PARENTHESES
      else vpGo (if '(' = '(' then c + 1 else if '(' = ')' then c - 1 else c)
        ((renderInfix a ++ '*' :: (renderInfix b ++ [')'])) ++ rest)) = _
    rw [if_pos rfl, if_neg (by omega)]
    have e1 : (renderInfix a ++ '*' :: (renderInfix b ++ [')'])) ++ rest =
        renderInfix a ++ ('*' :: (renderInfix b ++ (')' :: rest))) := by simp
    rw [e1, iha (c + 1) _ (by omega)]
    show (if (if '*' = '(' then c + 1 + 1 else if '*' = ')' then c + 1 - 1 else c + 1) < 0 then
        Except.error MISMATCHED_PARENTHESES
      else vpGo (if '*' = '(' then c + 1 + 1 else if '*' = ')' then c + 1 - 1 else c + 1)
        (renderInfix b ++ (')' :: rest))) = _
    rw [if_neg (show ¬('*' : Char) = '(' by decide), if_neg (show ¬('*' : Char) = ')' by decide),
      if_neg (show ¬(c + 1 < 0) by omega)]
    rw [ihb (c + 1) _ (by omega)]
    show (if (if ')' = '(' then c + 1 + 1 else if ')' = ')' then c + 1 - 1 else c + 1) < 0 then
        Except.error MISMATCHED_PARENTHESES
      else vpGo (if ')' = '(' then c + 1 + 1 else if ')' = ')' then c + 1 - 1 else c + 1) rest) = _
    rw [if_neg (show ¬(')' : Char) = '(' by decide), if_pos (show (')' : Char) = ')' from rfl),
      if_neg (show ¬(c + 1 - 1 < 0) by omega)]
    norm_num
  | div a b iha ihb =>
    intro c rest hc
    show vpGo c (('(' :: (renderInfix a ++ '/' :: (renderInfix b ++ [')']))) ++ rest) = _
    rw [List.cons_append]
    show (if (if '(' = '(' then c + 1 else if '(' = ')' then c - 1 else c) < 0 then
        Except.error MISMATCHED_PARENTHESES
      else vpGo (if '(' = '(' then c + 1 else if '(' = ')' then c - 1 else c)
        ((renderInfix a ++ '/' :: (renderInfix b ++ [')'])) ++ rest)) = _
    rw [if_pos rfl, if_neg (by omega)]
    have e1 : (renderInfix a ++ '/' :: (renderInfix b ++ [')'])) ++ rest =
        renderInfix a ++ ('/' :: (renderInfix b ++ (')' :: rest))) := by simp
    rw [e1, iha (c + 1) _ (by omega)]
    show (if (if '/' = '(' then c + 1 + 1 else if '/' = ')' then c + 1 - 1 else c + 1) < 0 then
        Except.error MISMATCHED_PARENTHESES
      else vpGo (if '/' = '(' then c + 1 + 1 else if '/' = ')' then c + 1 - 1 else c + 1)
        (renderInfix b ++ (')' :: rest))) = _
    rw [if_neg (show ¬('/' : Char) = '(' by decide), if_neg (show ¬('/' : Char) = ')' by decide),
      if_neg (show ¬(c + 1 < 0) by omega)]
    rw [ihb (c + 1) _ (by omega)]
    show (if (if ')' = '(' then c + 1 + 1 else if ')' = ')' then c + 1 - 1 else c + 1) < 0 then
        Except.error MISMATCHED_PARENTHESES
      else vpGo (if ')' = '(' then c + 1 + 1 else if ')' = ')' then c + 1 - 1 else c + 1) rest) = _
    rw [if_neg (show ¬(')' : Char) = '(' by decide), if_pos (show (')' : Char) = ')' from rfl),
      if_neg (show ¬(c + 1 - 1 < 0) by omega)]
    norm_num

theorem validateParentheses_render (e : AExp) :
    validateParenthesesCore (renderInfix e) = .ok () := by
  have h := vpGo_render e 0 [] (by omega)
  rw [List.append_nil] at h
  rw [validateParenthesesCore, h]
  rfl

/-- Every character of a rendered expression is whitelisted and not
whitespace. -/
theorem renderInfix_chars (e : AExp) :
    ∀ ch ∈ renderInfix e, whitelistChar ch = true ∧ jsWhitespace ch = false := by
  induction e with
  | num n =>
    intro ch hch
    have hd := natChars_digits n ch hch
    exact ⟨isDigit_whitelist ch hd, isDigit_not_ws ch hd⟩
  | add a b iha ihb =>
    intro ch hch
    simp only [renderInfix, List.mem_cons, List.mem_append] at hch
    rcases hch with rfl | (h | (rfl | (h | (rfl | hfalse))))
    · exact ⟨by decide, by decide⟩
    · exact iha ch h
    · exact ⟨by decide, by decide⟩
    · exact ihb ch h
    · exact ⟨by decide, by decide⟩
    · simp at hfalse
  | sub a b iha ihb =>
    intro ch hch
    simp only [renderInfix, List.mem_cons, List.mem_append] at hch
    rcases hch with rfl | (h | (rfl | (h | (rfl | hfalse))))
    · exact ⟨by decide, by decide⟩
    · exact iha ch h
    · exact ⟨by decide, by decide⟩
    · exact ihb ch h
    · exact ⟨by decide, by decide⟩
    · simp at hfalse
  | mul a b iha ihb =>
    intro ch hch
    simp only [renderInfix, List.mem_cons, List.mem_append] at hch
    rcases hch with rfl | (h | (rfl | (h | (rfl | hfalse))))
    · exact ⟨by decide, by decide⟩
    · exact iha ch h
    · exact ⟨by decide, by decide⟩
    · exact ihb ch h
    · exact ⟨by decide, by decide⟩
    · simp at hfalse
  | div a b iha ihb =>
    intro ch hch
    simp only [renderInfix, List.mem_cons, List.mem_append] at hch
    rcases hch with rfl | (h | (rfl | (h | (rfl | hfalse))))
    · exact ⟨by decide, by decide⟩
    · exact iha ch h
    · exact ⟨by decide, by decide⟩
    · exact ihb ch h
    · exact ⟨by decide, by decide⟩
    · simp at hfalse

theorem renderInfix_ne_nil (e : AExp) : renderInfix e ≠ [] := by
  cases e with
  | num n => exact natChars_ne_nil n
  | add a b => simp [renderInfix]
  | sub a b => simp [renderInfix]
  | mul a b => simp [renderInfix]
  | div a b => simp [renderInfix]

theorem infixTokens_ne_nil (e : AExp) : infixTokens e ≠ [] := by
  cases e with
  | num n => simp [infixTokens]
  | add a b => simp [infixTokens]
  | sub a b => simp [infixTokens]
  | mul a b => simp [infixTokens]
  | div a b => simp [infixTokens]

theorem postTokens_ne_nil (e : AExp) : postTokens e ≠ [] := by
  cases e with
  | num n => simp [postTokens]
  | add a b => simp [postTokens]
  | sub a b => simp [postTokens]
  | mul a b => simp [postTokens]
  | div a b => simp [postTokens]

/-- A rendered expression passes the expression validator. -/
theorem validateExpression_render (e : AExp) :
    validateExpressionCore (renderInfix e) = .ok () := by
  obtain ⟨c, t, hct⟩ : ∃ c t, renderInfix e = c :: t := by
    cases hr : renderInfix e with
    | nil => exact absurd hr (renderInfix_ne_nil e)
    | cons c t => exact ⟨c, t, rfl⟩
  have hcmem : c ∈ renderInfix e := by rw [hct]; simp
  have hnws := (renderInfix_chars e c hcmem).2
  have hempty : (renderInfix e).isEmpty = false := by rw [hct]; rfl
  have htrim : (jsTrim (renderInfix e)).isEmpty = false := by
    by_cases hb : (jsTrim (renderInfix e)).isEmpty = true
    · exfalso
      have hnil : jsTrim (renderInfix e) = [] := List.isEmpty_iff.mp hb
      have hall := (jsTrim_eq_nil_iff (renderInfix e)).mp hnil
      rw [hall c hcmem] at hnws
      exact Bool.true_eq_false.mp hnws
    · simpa using hb
  have hwl : (renderInfix e).all whitelistChar = true :=
    List.all_eq_true.mpr fun x hx => (renderInfix_chars e x hx).1
  simp [validateExpressionCore, hempty, htrim, hwl]

/-- Mapping twice over an `Except` composes. -/
theorem exceptMap_map {α β γ : Type} (m : Except String α) (f : α → β) (g : β → γ) :
    (m.map f).map g = m.map fun x => g (f x) := by
  cases m <;> rfl

/-- `natChars` is never a single non-digit character. -/
theorem natChars_ne_single (n : Nat) (x : Char) (hx : x.isDigit = false) :
    natChars n ≠ [x] := by
  intro heq
  have hmem : x ∈ natChars n := by rw [heq]; simp
  rw [natChars_digits n x hmem] at hx
  exact Bool.true_eq_false.mp hx

/-- The last token of a rendered subexpression never puts a following `-`
in unary position. -/
theorem unaryPos_lastTok (e : AExp) : unaryPos (some (lastTok e)) = false := by
  cases e with
  | num n =>
    show unaryPos (some (natChars n)) = false
    have hne : ∀ x : Char, x.isDigit = false → decide (natChars n = [x]) = false := by
      intro x hx
      simp only [decide_eq_false_iff_not]
      exact natChars_ne_single n x hx
    simp only [unaryPos]
    rw [hne '+' (by decide), hne '-' (by decide), hne '*' (by decide), hne '/' (by decide),
      hne '(' (by decide)]
    rfl
  | add a b => exact (by decide : unaryPos (some [')']) = false)
  | sub a b => exact (by decide : unaryPos (some [')']) = false)
  | mul a b => exact (by decide : unaryPos (some [')']) = false)
  | div a b => exact (by decide : unaryPos (some [')']) = false)

/-- `mergeNegativeNumbers`' loop passes the token sequence of a rendered
expression through unchanged: inside it no `-` ever sits in unary
position. -/
theorem mergeGo_infixTokens (e : AExp) : ∀ (prev : Option (List Char)) (rest : List (List Char)),
    mergeGo prev (infixTokens e ++ rest) =
      (mergeGo (some (lastTok e)) rest).map fun r => infixTokens e ++ r := by
  induction e with
  | num n =>
    intro prev rest
    show mergeGo prev (natChars n :: rest) = _
    rw [mergeGo_other_step prev (natChars n) rest (natChars_ne_single n '-' (by decide))]
    cases hm : mergeGo (some (natChars n)) rest <;> simp [hm, lastTok, Except.map, infixTokens]
  | add a b iha ihb =>
    intro prev rest
    have h1 : infixTokens (AExp.add a b) ++ rest =
        ['('] :: (infixTokens a ++ (['+'] :: (infixTokens b ++ ([')'] :: rest)))) := by
      simp [infixTokens]
    rw [h1, mergeGo_other_step prev ['('] _ (by decide), iha (some ['(']) _,
      mergeGo_other_step (some (lastTok a)) ['+'] _ (by decide), ihb (some ['+']) _,
      mergeGo_other_step (some (lastTok b)) [')'] rest (by decide)]
    cases hm : mergeGo (some [')']) rest <;> simp [hm, lastTok, Except.map, infixTokens]
  | sub a b iha ihb =>
    intro prev rest
    obtain ⟨n, l2, hb⟩ : ∃ n l2, infixTokens b = n :: l2 := by
      cases hib : infixTokens b with
      | nil => exact absurd hib (infixTokens_ne_nil b)
      | cons n l2 => exact ⟨n, l2, rfl⟩
    have h1 : infixTokens (AExp.sub a b) ++ rest =
        ['('] :: (infixTokens a ++ (['-'] :: (n :: (l2 ++ ([')'] :: rest))))) := by
      simp [infixTokens, hb]
    have h2 : n :: (l2 ++ ([')'] :: rest)) = infixTokens b ++ ([')'] :: rest) := by
      simp [hb]
    rw [h1, mergeGo_other_step prev ['('] _ (by decide), iha (some ['(']) _,
      mergeGo_binary_step (some (lastTok a)) n _ (Or.inl (unaryPos_lastTok a)), h2,
      ihb (some ['-']) _,
      mergeGo_other_step (some (lastTok b)) [')'] rest (by decide)]
    cases hm : mergeGo (some [')']) rest <;> simp [hm, lastTok, Except.map, infixTokens, hb]
  | mul a b iha ihb =>
    intro prev rest
    have h1 : infixTokens (AExp.mul a b) ++ rest =
        ['('] :: (infixTokens a ++ (['*'] :: (infixTokens b ++ ([')'] :: rest)))) := by
      simp [infixTokens]
    rw [h1, mergeGo_other_step prev ['('] _ (by decide), iha (some ['(']) _,
      mergeGo_other_step (some (lastTok a)) ['*'] _ (by decide), ihb (some ['*']) _,
      mergeGo_other_step (some (lastTok b)) [')'] rest (by decide)]
    cases hm : mergeGo (some [')']) rest <;> simp [hm, lastTok, Except.map, infixTokens]
  | div a b iha ihb =>
    intro prev rest
    have h1 : infixTokens (AExp.div a b) ++ rest =
        ['('] :: (infixTokens a ++ (['/'] :: (infixTokens b ++ ([')'] :: rest)))) := by
      simp [infixTokens]
    rw [h1, mergeGo_other_step prev ['('] _ (by decide), iha (some ['(']) _,
      mergeGo_other_step (some (lastTok a)) ['/'] _ (by decide), ihb (some ['/']) _,
      mergeGo_other_step (some (lastTok b)) [')'] rest (by decide)]
    cases hm : mergeGo (some [')']) rest <;> simp [hm, lastTok, Except.map, infixTokens]

/-- `mergeNegativeNumbers` is the identity on rendered token sequences. -/
theorem mergeNegativeNumbers_render (e : AExp) :
    mergeNegativeNumbers (infixTokens e) = .ok (infixTokens e) := by
  have h := mergeGo_infixTokens e none []
  rw [List.append_nil] at h
  rw [mergeNegativeNumbers, h]
  simp [mergeGo, Except.map]

/-- Converter loop: `(` is pushed onto the operator stack. -/
theorem syGo_lparen (rest : List (List Char)) (out ops : List (List Char)) :
    syGo (['('] :: rest) out ops = syGo rest out (['('] :: ops) := by
  simp [syGo, isValidNumber_lparen_tok, precedence]

/-- Converter loop: an operator pops the `popCond` prefix and is pushed. -/
theorem syGo_op (tok : List Char) (pt : Nat) (out ops rest : List (List Char))
    (h : precedence tok = some pt) :
    syGo (tok :: rest) out ops =
      syGo rest (out ++ ops.takeWhile (popCond pt)) (tok :: ops.dropWhile (popCond pt)) := by
  simp [syGo, precedence_isSome_not_number tok pt h, h, popLoop_spec]

/-- Converter loop: `)` over a stack `op, (, …` pops `op`, discards the
`(`, and continues. -/
theorem syGo_rparen_op (op : List Char) (out ops rest : List (List Char))
    (hop : op ≠ ['(']) :
    syGo ([')'] :: rest) out (op :: ['('] :: ops) = syGo rest (out ++ [op]) ops := by
  have hpt : popToParen out (op :: ['('] :: ops) = (out ++ [op], ['('] :: ops) := by
    simp [popToParen, hop]
  simp [syGo, isValidNumber_rparen_tok, precedence, hpt]

/-- The shunting-yard loop turns the token sequence of a rendered
expression (with in-range literals) into its postorder, appended to the
output, leaving the operator stack unchanged. -/
theorem syGo_render : ∀ e : AExp, litsInRange e → ∀ out ops rest : List (List Char),
    syGo (infixTokens e ++ rest) out ops = syGo rest (out ++ postTokens e) ops := by
  intro e
  induction e with
  | num n =>
    intro he out ops rest
    show syGo (natChars n :: rest) out ops = _
    rw [syGo_num_step (natChars n) (n : ℚ) out ops rest (jsParseFloat_natChars n) he]
    rfl
  | add a b iha ihb =>
    intro he out ops rest
    obtain ⟨ha, hb⟩ := he
    have h1 : infixTokens (AExp.add a b) ++ rest =
        ['('] :: (infixTokens a ++ (['+'] :: (infixTokens b ++ ([')'] :: rest)))) := by
      simp [infixTokens]
    have htw : (['('] :: ops).takeWhile (popCond 1) = [] := by
      simp [List.takeWhile_cons, popCond, precedence]
    have hdw : (['('] :: ops).dropWhile (popCond 1) = ['('] :: ops := by
      simp [List.dropWhile_cons, popCond, precedence]
    rw [h1, syGo_lparen, iha ha out (['('] :: ops) _, syGo_op ['+'] 1 _ _ _ rfl,
      htw, hdw, List.append_nil, ihb hb (out ++ postTokens a) (['+'] :: ['('] :: ops) _,
      syGo_rparen_op ['+'] _ ops rest (by decide)]
    simp [postTokens]
  | sub a b iha ihb =>
    intro he out ops rest
    obtain ⟨ha, hb⟩ := he
    have h1 : infixTokens (AExp.sub a b) ++ rest =
        ['('] :: (infixTokens a ++ (['-'] :: (infixTokens b ++ ([')'] :: rest)))) := by
      simp [infixTokens]
    have htw : (['('] :: ops).takeWhile (popCond 1) = [] := by
      simp [List.takeWhile_cons, popCond, precedence]
    have hdw : (['('] :: ops).dropWhile (popCond 1) = ['('] :: ops := by
      simp [List.dropWhile_cons, popCond, precedence]
    rw [h1, syGo_lparen, iha ha out (['('] :: ops) _, syGo_op ['-'] 1 _ _ _ rfl,
      htw, hdw, List.append_nil, ihb hb (out ++ postTokens a) (['-'] :: ['('] :: ops) _,
      syGo_rparen_op ['-'] _ ops rest (by decide)]
    simp [postTokens]
  | mul a b iha ihb =>
    intro he out ops rest
    obtain ⟨ha, hb⟩ := he
    have h1 : infixTokens (AExp.mul a b) ++ rest =
        ['('] :: (infixTokens a ++ (['*'] :: (infixTokens b ++ ([')'] :: rest)))) := by
      simp [infixTokens]
    have htw : (['('] :: ops).takeWhile (popCond 2) = [] := by
      simp [List.takeWhile_cons, popCond, precedence]
    have hdw : (['('] :: ops).dropWhile (popCond 2) = ['('] :: ops := by
      simp [List.dropWhile_cons, popCond, precedence]
    rw [h1, syGo_lparen, iha ha out (['('] :: ops) _, syGo_op ['*'] 2 _ _ _ rfl,
      htw, hdw, List.append_nil, ihb hb (out ++ postTokens a) (['*'] :: ['('] :: ops) _,
      syGo_rparen_op ['*'] _ ops rest (by decide)]
    simp [postTokens]
  | div a b iha ihb =>
    intro he out ops rest
    obtain ⟨ha, hb⟩ := he
    have h1 : infixTokens (AExp.div a b) ++ rest =
        ['('] :: (infixTokens a ++ (['/'] :: (infixTokens b ++ ([')'] :: rest)))) := by
      simp [infixTokens]
    have htw : (['('] :: ops).takeWhile (popCond 2) = [] := by
      simp [List.takeWhile_cons, popCond, precedence]
    have hdw : (['('] :: ops).dropWhile (popCond 2) = ['('] :: ops := by
      simp [List.dropWhile_cons, popCond, precedence]
    rw [h1, syGo_lparen, iha ha out (['('] :: ops) _, syGo_op ['/'] 2 _ _ _ rfl,
      htw, hdw, List.append_nil, ihb hb (out ++ postTokens a) (['/'] :: ['('] :: ops) _,
      syGo_rparen_op ['/'] _ ops rest (by decide)]
    simp [postTokens]

/-- `infixToPostfix` on a rendered expression with in-range literals
produces exactly its space-joined postorder. -/
theorem infixToPostfix_render (e : AExp) (he : litsInRange e) :
    infixToPostfixCore (renderInfix e) = .ok (joinToks (postTokens e)) := by
  have htok : tokenizeCore (renderInfix e) = infixTokens e := by
    have h := tokenize_render e [] (Or.inl rfl)
    rw [List.append_nil] at h
    rw [tokenizeCore, h, show scanTokens .top [] = [] from rfl, List.append_nil]
  have hne : (infixTokens e).isEmpty = false := by
    cases hit : infixTokens e with
    | nil => exact absurd hit (infixTokens_ne_nil e)
    | cons t ts => rfl
  have hsy : syGo (infixTokens e) [] [] = .ok (postTokens e) := by
    have h := syGo_render e he [] [] []
    rw [List.append_nil] at h
    rw [h]
    show drainOps [] ([] ++ postTokens e) = _
    rw [List.nil_append, drainOps]
    have hpne : (postTokens e).isEmpty = false := by
      cases hpt : postTokens e with
      | nil => exact absurd hpt (postTokens_ne_nil e)
      | cons t ts => rfl
    simp [hpne]
  simp only [infixToPostfixCore, validateParentheses_render e, htok, hne,
    mergeNegativeNumbers_render e, hsy, Bool.false_eq_true, if_false]

theorem splitSpace_ne_nil (cs : List Char) : splitSpace cs ≠ [] := by
  induction cs with
  | nil => simp [splitSpace]
  | cons c rest ih =>
    cases hs : splitSpace rest with
    | nil => exact absurd hs ih
    | cons t ts => by_cases hc : c = ' ' <;> simp [splitSpace, hs, hc]

theorem splitSpace_no_space (t : List Char) (h : ' ' ∉ t) : splitSpace t = [t] := by
  induction t with
  | nil => rfl
  | cons c t' ih =>
    have hc : ¬c = ' ' := fun hh => h (by simp [hh])
    have ht' : ' ' ∉ t' := fun hh => h (by simp [hh])
    simp [splitSpace, ih ht', hc]

theorem splitSpace_append (t cs : List Char) (h : ' ' ∉ t) :
    splitSpace (t ++ ' ' :: cs) = t :: splitSpace cs := by
  induction t with
  | nil =>
    rw [List.nil_append]
    cases hs : splitSpace cs with
    | nil => exact absurd hs (splitSpace_ne_nil cs)
    | cons t0 ts => simp [splitSpace, hs]
  | cons c t' ih =>
    have hc : ¬c = ' ' := fun hh => h (by simp [hh])
    have ht' : ' ' ∉ t' := fun hh => h (by simp [hh])
    rw [List.cons_append]
    simp [splitSpace, ih ht', hc]

/-- Splitting the space-join of space-free tokens recovers the tokens. -/
theorem splitSpace_joinToks (ts : List (List Char)) (hne : ts ≠ [])
    (h : ∀ t ∈ ts, ' ' ∉ t) : splitSpace (joinToks ts) = ts := by
  induction ts with
  | nil => exact absurd rfl hne
  | cons t ts' ih =>
    cases ts' with
    | nil => exact splitSpace_no_space t (h t (by simp))
    | cons t2 ts'' =>
      rw [show joinToks (t :: t2 :: ts'') = t ++ ' ' :: joinToks (t2 :: ts'') from rfl,
        splitSpace_append t _ (h t (by simp)),
        ih (by simp) (fun x hx => h x (by simp [hx]))]

theorem postTokens_no_space (e : AExp) : ∀ t ∈ postTokens e, ' ' ∉ t := by
  induction e with
  | num n =>
    intro t ht
    simp only [postTokens, List.mem_singleton] at ht
    subst ht
    intro hsp
    have := natChars_digits n ' ' hsp
    simp at this
  | add a b iha ihb =>
    intro t ht
    simp only [postTokens, List.mem_append, List.mem_singleton] at ht
    rcases ht with h1 | (h1 | rfl)
    · exact iha t h1
    · exact ihb t h1
    · decide
  | sub a b iha ihb =>
    intro t ht
    simp only [postTokens, List.mem_append, List.mem_singleton] at ht
    rcases ht with h1 | (h1 | rfl)
    · exact iha t h1
    · exact ihb t h1
    · decide
  | mul a b iha ihb =>
    intro t ht
    simp only [postTokens, List.mem_append, List.mem_singleton] at ht
    rcases ht with h1 | (h1 | rfl)
    · exact iha t h1
    · exact ihb t h1
    · decide
  | div a b iha ihb =>
    intro t ht
    simp only [postTokens, List.mem_append, List.mem_singleton] at ht
    rcases ht with h1 | (h1 | rfl)
    · exact iha t h1
    · exact ihb t h1
    · decide

/-- A postorder token sequence starts with a numeric literal token. -/
theorem postTokens_head (e : AExp) : ∃ n ts, postTokens e = natChars n :: ts := by
  induction e with
  | num n => exact ⟨n, [], rfl⟩
  | add a b iha _ =>
    obtain ⟨n, ts, h⟩ := iha
    exact ⟨n, ts ++ (postTokens b ++ [['+']]), by simp [postTokens, h]⟩
  | sub a b iha _ =>
    obtain ⟨n, ts, h⟩ := iha
    exact ⟨n, ts ++ (postTokens b ++ [['-']]), by simp [postTokens, h]⟩
  | mul a b iha _ =>
    obtain ⟨n, ts, h⟩ := iha
    exact ⟨n, ts ++ (postTokens b ++ [['*']]), by simp [postTokens, h]⟩
  | div a b iha _ =>
    obtain ⟨n, ts, h⟩ := iha
    exact ⟨n, ts ++ (postTokens b ++ [['/']]), by simp [postTokens, h]⟩

theorem joinToks_cons (t : List Char) (ts : List (List Char)) :
    ∃ z, joinToks (t :: ts) = t ++ z := by
  cases ts with
  | nil => exact ⟨[], by simp [joinToks]⟩
  | cons t2 ts' => exact ⟨' ' :: joinToks (t2 :: ts'), rfl⟩

/-- Direct evaluation succeeds only with in-range literals. -/
theorem directEval_litsInRange : ∀ (e : AExp) (v : ℚ), directEval e = some v → litsInRange e := by
  intro e
  induction e with
  | num n =>
    intro v h
    simp only [directEval] at h
    split_ifs at h with hr
    · exact hr
  | add a b iha ihb =>
    intro v h
    simp only [directEval] at h
    cases ha : directEval a with
    | none => rw [ha] at h; simp at h
    | some x =>
      cases hb : directEval b with
      | none => rw [ha, hb] at h; simp at h
      | some y => exact ⟨iha x ha, ihb y hb⟩
  | sub a b iha ihb =>
    intro v h
    simp only [directEval] at h
    cases ha : directEval a with
    | none => rw [ha] at h; simp at h
    | some x =>
      cases hb : directEval b with
      | none => rw [ha, hb] at h; simp at h
      | some y => exact ⟨iha x ha, ihb y hb⟩
  | mul a b iha ihb =>
    intro v h
    simp only [directEval] at h
    cases ha : directEval a with
    | none => rw [ha] at h; simp at h
    | some x =>
      cases hb : directEval b with
      | none => rw [ha, hb] at h; simp at h
      | some y => exact ⟨iha x ha, ihb y hb⟩
  | div a b iha ihb =>
    intro v h
    simp only [directEval] at h
    cases ha : directEval a with
    | none => rw [ha] at h; simp at h
    | some x =>
      cases hb : directEval b with
      | none => rw [ha, hb] at h; simp at h
      | some y => exact ⟨iha x ha, ihb y hb⟩

/-- Evaluating the postorder of an expression on any stack pushes its
direct value. -/
theorem evGo_postTokens : ∀ (e : AExp) (v : ℚ) (stack : List ℚ) (rest : List (List Char)),
    directEval e = some v → evGo stack (postTokens e ++ rest) = evGo (v :: stack) rest := by
  intro e
  induction e with
  | num n =>
    intro v stack rest h
    simp only [directEval] at h
    split_ifs at h with hr
    rw [Option.some.injEq] at h
    subst h
    show evGo stack (natChars n :: rest) = _
    rw [evGo_num_step (natChars n) (n : ℚ) stack rest (jsParseFloat_natChars n) hr]
  | add a b iha ihb =>
    intro v stack rest h
    simp only [directEval] at h
    cases ha : directEval a with
    | none => rw [ha] at h; simp at h
    | some x =>
      cases hb : directEval b with
      | none => rw [ha, hb] at h; simp at h
      | some y =>
        rw [ha, hb] at h
        simp only [] at h
        split_ifs at h with hr
        · rw [Option.some.injEq] at h
          subst h
          have h1 : postTokens (AExp.add a b) ++ rest =
              postTokens a ++ (postTokens b ++ (['+'] :: rest)) := by
            simp [postTokens]
          rw [h1, iha x stack _ ha, ihb y (x :: stack) _ hb,
            evGo_add_step x y stack rest hr]
  | sub a b iha ihb =>
    intro v stack rest h
    simp only [directEval] at h
    cases ha : directEval a with
    | none => rw [ha] at h; simp at h
    | some x =>
      cases hb : directEval b with
      | none => rw [ha, hb] at h; simp at h
      | some y =>
        rw [ha, hb] at h
        simp only [] at h
        split_ifs at h with hr
        · rw [Option.some.injEq] at h
          subst h
          have h1 : postTokens (AExp.sub a b) ++ rest =
              postTokens a ++ (postTokens b ++ (['-'] :: rest)) := by
            simp [postTokens]
          rw [h1, iha x stack _ ha, ihb y (x :: stack) _ hb,
            evGo_sub_step x y stack rest hr]
  | mul a b iha ihb =>
    intro v stack rest h
    simp only [directEval] at h
    cases ha : directEval a with
    | none => rw [ha] at h; simp at h
    | some x =>
      cases hb : directEval b with
      | none => rw [ha, hb] at h; simp at h
      | some y =>
        rw [ha, hb] at h
        simp only [] at h
        split_ifs at h with hr
        · rw [Option.some.injEq] at h
          subst h
          have h1 : postTokens (AExp.mul a b) ++ rest =
              postTokens a ++ (postTokens b ++ (['*'] :: rest)) := by
            simp [postTokens]
          rw [h1, iha x stack _ ha, ihb y (x :: stack) _ hb,
            evGo_mul_step x y stack rest hr]
  | div a b iha ihb =>
    intro v stack rest h
    simp only [directEval] at h
    cases ha : directEval a with
    | none => rw [ha] at h; simp at h
    | some x =>
      cases hb : directEval b with
      | none => rw [ha, hb] at h; simp at h
      | some y =>
        rw [ha, hb] at h
        simp only [] at h
        split_ifs at h with hy hr
        · rw [Option.some.injEq] at h
          subst h
          have h1 : postTokens (AExp.div a b) ++ rest =
              postTokens a ++ (postTokens b ++ (['/'] :: rest)) := by
            simp [postTokens]
          rw [h1, iha x stack _ ha, ihb y (x :: stack) _ hb,
            evGo_div_step x y stack rest hy hr]

/-- Evaluating the space-joined postorder of an expression returns its
direct value. -/
theorem evaluatePostfix_postTokens (e : AExp) (v : ℚ) (h : directEval e = some v) :
    evaluatePostfixCore (joinToks (postTokens e)) = .ok v := by
  obtain ⟨n, ts, hpt⟩ := postTokens_head e
  obtain ⟨c, t, hnc⟩ : ∃ c t, natChars n = c :: t := by
    cases hx : natChars n with
    | nil => exact absurd hx (natChars_ne_nil n)
    | cons c t => exact ⟨c, t, rfl⟩
  have hcd : c.isDigit = true := natChars_digits n c (by rw [hnc]; simp)
  obtain ⟨z, hjz⟩ := joinToks_cons (natChars n) ts
  have hjoin : joinToks (postTokens e) = c :: (t ++ z) := by
    rw [hpt, hjz, hnc]
    simp
  have htrim : (jsTrim (joinToks (postTokens e))).isEmpty = false := by
    by_cases hb : (jsTrim (joinToks (postTokens e))).isEmpty = true
    · exfalso
      have hnil : jsTrim (joinToks (postTokens e)) = [] := List.isEmpty_iff.mp hb
      have hall := (jsTrim_eq_nil_iff (joinToks (postTokens e))).mp hnil
      have hcmem : c ∈ joinToks (postTokens e) := by rw [hjoin]; simp
      have := hall c hcmem
      rw [isDigit_not_ws c hcd] at this
      exact Bool.false_eq_true.mp this
    · simpa using hb
  have hsplit : splitSpace (joinToks (postTokens e)) = postTokens e :=
    splitSpace_joinToks (postTokens e) (postTokens_ne_nil e) (postTokens_no_space e)
  have hev := evGo_postTokens e v [] [] h
  rw [List.append_nil] at hev
  simp only [evaluatePostfixCore, htrim, Bool.false_eq_true, if_false, hsplit, hev]
  rfl

/-- C1 (round trip): for every expression `e` whose direct arithmetic
evaluation (with the engine's range and division side conditions) yields
`v`, converting the rendered infix string to postfix succeeds with the
space-joined postorder of `e`, evaluating that postfix yields `v`, and
`calculate` on the rendered string yields `v`; in particular
`infixToPostfix "3+4*2"` gives `"3 4 2 * +"` which evaluates to `11`. -/
theorem claim_C1 :
    (∀ (e : AExp) (v : ℚ), directEval e = some v →
      infixToPostfixCore (renderInfix e) = .ok (joinToks (postTokens e)) ∧
      evaluatePostfixCore (joinToks (postTokens e)) = .ok v ∧
      calculateCore (renderInfix e) = .ok v) ∧
    infixToPostfix "3+4*2" = .ok "3 4 2 * +" ∧
    evaluatePostfix "3 4 2 * +" = .ok 11 ∧
    calculate "3+4*2" = .ok 11 := by
  refine ⟨?_, by with_unfolding_all rfl, by with_unfolding_all rfl, by with_unfolding_all rfl⟩
  intro e v h
  have hlit : litsInRange e := directEval_litsInRange e v h
  have h1 := infixToPostfix_render e hlit
  have h2 := evaluatePostfix_postTokens e v h
  refine ⟨h1, h2, ?_⟩
  simp only [calculateCore, validateExpression_render e, h1, h2]

/-- Witness for C1 at the concrete expression `(3+4)`: direct evaluation
gives `7`, and the full pipeline agrees. -/
theorem claim_C1_witness :
    infixToPostfixCore (renderInfix (AExp.add (AExp.num 3) (AExp.num 4))) =
      .ok (joinToks (postTokens (AExp.add (AExp.num 3) (AExp.num 4)))) ∧
    evaluatePostfixCore (joinToks (postTokens (AExp.add (AExp.num 3) (AExp.num 4)))) = .ok 7 ∧
    calculateCore (renderInfix (AExp.add (AExp.num 3) (AExp.num 4))) = .ok 7 :=
  claim_C1.1 (AExp.add (AExp.num 3) (AExp.num 4)) 7 (by with_unfolding_all rfl)

end CalcEngine
